import Mathlib

/-!
Verification of the connected-component mask-rectangle extractor
(`extractConnectedMaskRects` in `src/utils/eraseMask.ts`) and of the
erase-brush caller's `minPixels` policy (`src/App.tsx`).

The TypeScript source is shallowly embedded:
* `Uint8ClampedArray` masks become `List ℕ` (byte values; reads out of
  range yield 0, matching `mask[idx]` being `undefined ≠ 0` never taken
  because every index the code reads is in range — we mirror the reads
  with `List.getD _ _ 0`).
* the `visited` byte array becomes the `Finset ℕ` of indices whose flag
  is set;
* the work array used as a stack (`push`/`pop` at the same end) becomes a
  `List ℕ` used as a stack at its head;
* `Rect` keeps its four numeric fields (all values produced are naturals);
* the `rects.sort((a, b) => (a.y - b.y) || (a.x - b.x))` call — a stable
  sort by ascending `(y, x)` — is embedded as the stable insertion sort
  by the corresponding total preorder (a stable sort's output is uniquely
  determined by the preorder and the input order, so any stable sort is a
  faithful model of ECMAScript `Array.prototype.sort`).

The flood-fill `while` loop is defined by well-founded recursion on the
measure `queue.length + 5·|unvisited cells|`; a fuel-indexed mirror of the
whole extractor (`extractConnectedMaskRectsF`) is also defined and proved
to agree, which both makes the extractor kernel-computable on concrete
inputs and makes the termination bound of the loops an explicit theorem.
-/

/-- Axis-aligned rectangle, from `Rect` in `src/types.ts`. -/
structure Rect where
  x : ℕ
  y : ℕ
  width : ℕ
  height : ℕ
deriving DecidableEq, Repr

/-- State of the flood-fill loop of `extractConnectedMaskRects`: the
`visited` flags, the work stack `queue`, and the per-component
accumulators `count`, `minX`, `minY`, `maxX`, `maxY`. -/
structure FillState where
  visited : Finset ℕ
  queue : List ℕ
  count : ℕ
  minX : ℕ
  minY : ℕ
  maxX : ℕ
  maxY : ℕ
deriving DecidableEq

/-- The inner helper `pushIfValid(x, y)` of `extractConnectedMaskRects`:
reject out-of-bounds coordinates, then reject already-visited or
background pixels, otherwise mark visited and push onto the stack.
Coordinates are integers because the source calls it with `x - 1`,
`y - 1` which may be negative. -/
def pushIfValid (mask : List ℕ) (width height : ℕ) (s : FillState) (x y : ℤ) : FillState :=
  if x < 0 ∨ y < 0 ∨ (width : ℤ) ≤ x ∨ (height : ℤ) ≤ y then s
  else if (y * width + x).toNat ∈ s.visited ∨ mask.getD (y * width + x).toNat 0 = 0 then s
  else { s with visited := insert (y * width + x).toNat s.visited,
                queue := (y * width + x).toNat :: s.queue }

/-- Termination measure for the flood-fill loop: each iteration pops one
stack entry and each push marks one previously-unvisited in-range cell
visited. -/
def fillMeasure (len : ℕ) (s : FillState) : ℕ :=
  s.queue.length + 5 * (Finset.range len \ s.visited).card

/-- One iteration of the flood-fill `while` loop: pop `current`, update
the accumulators, and try to push the four edge-neighbours
(4-connectivity). -/
def stepState (mask : List ℕ) (width height : ℕ) (s : FillState) (current : ℕ)
    (rest : List ℕ) : FillState :=
  let x := current % width
  let y := current / width
  let s1 : FillState :=
    { s with queue := rest, count := s.count + 1,
             minX := min s.minX x, minY := min s.minY y,
             maxX := max s.maxX x, maxY := max s.maxY y }
  let s2 := pushIfValid mask width height s1 ((x : ℤ) - 1) (y : ℤ)
  let s3 := pushIfValid mask width height s2 ((x : ℤ) + 1) (y : ℤ)
  let s4 := pushIfValid mask width height s3 (x : ℤ) ((y : ℤ) - 1)
  pushIfValid mask width height s4 (x : ℤ) ((y : ℤ) + 1)

lemma pushIfValid_measure_le (mask : List ℕ) (width height : ℕ) (s : FillState) (x y : ℤ) :
    fillMeasure mask.length (pushIfValid mask width height s x y) ≤ fillMeasure mask.length s := by
  unfold pushIfValid
  split
  · exact le_refl _
  · split
    · exact le_refl _
    · rename_i hcond hnot
      push_neg at hnot
      obtain ⟨hvis, hmask⟩ := hnot
      set idx := (y * width + x).toNat with hidx
      have hlen : idx < mask.length := by
        by_contra hge
        exact hmask (List.getD_eq_default _ _ (Nat.le_of_not_lt hge))
      have hmem : idx ∈ Finset.range mask.length \ s.visited := by
        simp [Finset.mem_sdiff, Finset.mem_range, hlen, hvis]
      have hcard : ((Finset.range mask.length) \ (insert idx s.visited)).card + 1 =
          ((Finset.range mask.length) \ s.visited).card := by
        have : (Finset.range mask.length \ s.visited).erase idx =
            Finset.range mask.length \ insert idx s.visited := by
          ext a
          simp [Finset.mem_erase, Finset.mem_sdiff, Finset.mem_range, Finset.mem_insert]
          tauto
        rw [← this]
        exact Finset.card_erase_add_one hmem
      simp only [fillMeasure]
      simp only [List.length_cons]
      omega

lemma stepState_measure (mask : List ℕ) (width height : ℕ) (s : FillState) (current : ℕ)
    (rest : List ℕ) (hq : s.queue = current :: rest) :
    fillMeasure mask.length (stepState mask width height s current rest) <
      fillMeasure mask.length s := by
  unfold stepState
  have h1 : fillMeasure mask.length
      ({ s with queue := rest, count := s.count + 1,
                minX := min s.minX (current % width), minY := min s.minY (current / width),
                maxX := max s.maxX (current % width), maxY := max s.maxY (current / width) } : FillState)
      < fillMeasure mask.length s := by
    simp only [fillMeasure, hq, List.length_cons]
    omega
  calc fillMeasure mask.length _ ≤ _ := pushIfValid_measure_le _ _ _ _ _ _
    _ ≤ _ := pushIfValid_measure_le _ _ _ _ _ _
    _ ≤ _ := pushIfValid_measure_le _ _ _ _ _ _
    _ ≤ _ := pushIfValid_measure_le _ _ _ _ _ _
    _ < _ := h1

/-- The flood-fill `while (queue.length > 0)` loop of
`extractConnectedMaskRects`. -/
def floodLoop (mask : List ℕ) (width height : ℕ) (s : FillState) : FillState :=
  match hq : s.queue with
  | [] => s
  | current :: rest => floodLoop mask width height (stepState mask width height s current rest)
termination_by fillMeasure mask.length s
decreasing_by exact stepState_measure mask width height s current rest hq

lemma floodLoop_nil (mask : List ℕ) (width height : ℕ) (s : FillState)
    (h : s.queue = []) : floodLoop mask width height s = s := by
  rw [floodLoop]
  split
  · rfl
  · rename_i current rest hq
    rw [h] at hq
    exact absurd hq (by simp)

lemma floodLoop_cons (mask : List ℕ) (width height : ℕ) (s : FillState) (current : ℕ)
    (rest : List ℕ) (h : s.queue = current :: rest) :
    floodLoop mask width height s =
      floodLoop mask width height (stepState mask width height s current rest) := by
  rw [floodLoop]
  split
  · rename_i hq
    rw [h] at hq
    exact absurd hq (by simp)
  · rename_i c r hq
    rw [h] at hq
    injection hq with h1 h2
    subst h1
    subst h2
    rfl

/-- The outer scan loop of `extractConnectedMaskRects`: skip visited or
background pixels; otherwise flood-fill the component seeded at `idx`
and emit its bounding rectangle when `count >= minPixels`. -/
def scanLoop (mask : List ℕ) (width height minPixels : ℕ) (idx : ℕ) (visited : Finset ℕ)
    (rects : List Rect) : List Rect :=
  if h : idx < mask.length then
    if idx ∈ visited ∨ mask.getD idx 0 = 0 then
      scanLoop mask width height minPixels (idx + 1) visited rects
    else
      let f := floodLoop mask width height
        ⟨insert idx visited, [idx], 0, width, height, 0, 0⟩
      scanLoop mask width height minPixels (idx + 1) f.visited
        (if minPixels ≤ f.count then
          rects ++ [⟨f.minX, f.minY, f.maxX - f.minX + 1, f.maxY - f.minY + 1⟩]
        else rects)
  else rects
termination_by mask.length - idx
decreasing_by all_goals omega

/-- The comparator `(a, b) => (a.y - b.y) || (a.x - b.x)`: `a` sorts no
later than `b` iff `a.y < b.y`, or `a.y = b.y` and `a.x ≤ b.x`. -/
def rectLE (a b : Rect) : Prop :=
  a.y < b.y ∨ (a.y = b.y ∧ a.x ≤ b.x)

instance : DecidableRel rectLE := fun a b => by
  unfold rectLE
  infer_instance

instance : IsTotal Rect rectLE :=
  ⟨fun a b => by unfold rectLE; omega⟩

instance : IsTrans Rect rectLE :=
  ⟨fun a b c hab hbc => by unfold rectLE at *; omega⟩

/-- The extractor `extractConnectedMaskRects(mask, width, height, minPixels)`
from `src/utils/eraseMask.ts`: return `[]` on a length mismatch, else scan
all pixels, flood-fill each undiscovered foreground component, keep those
with at least `minPixels` pixels, and return the bounding rectangles
sorted (stably) by ascending `(y, x)`. -/
def extractConnectedMaskRects (mask : List ℕ) (width height : ℕ)
    (minPixels : ℕ := 80) : List Rect :=
  if mask.length ≠ width * height then []
  else List.insertionSort rectLE (scanLoop mask width height minPixels 0 ∅ [])

/-- Fuel-indexed mirror of `floodLoop`; `none` means the fuel ran out
before the stack emptied. -/
def floodLoopF (mask : List ℕ) (width height : ℕ) : ℕ → FillState → Option FillState
  | 0, _ => none
  | fuel + 1, s =>
    match s.queue with
    | [] => some s
    | current :: rest => floodLoopF mask width height fuel (stepState mask width height s current rest)

lemma floodLoopF_sound (mask : List ℕ) (width height : ℕ) :
    ∀ (fuel : ℕ) (s : FillState), fillMeasure mask.length s < fuel →
      floodLoopF mask width height fuel s = some (floodLoop mask width height s) := by
  intro fuel
  induction fuel with
  | zero => intro s h; omega
  | succ n ih =>
    intro s h
    match hq : s.queue with
    | [] =>
      rw [floodLoop_nil mask width height s hq]
      simp [floodLoopF, hq]
    | current :: rest =>
      rw [floodLoop_cons mask width height s current rest hq]
      have hm := stepState_measure mask width height s current rest hq
      simp only [floodLoopF, hq]
      exact ih _ (by omega)

/-- Fuel-indexed mirror of `scanLoop`; every flood fill is run with fuel
`5 * mask.length + 2`, enough for any reachable state. -/
def scanLoopF (mask : List ℕ) (width height minPixels : ℕ) :
    ℕ → ℕ → Finset ℕ → List Rect → Option (List Rect)
  | 0, _, _, _ => none
  | fuel + 1, idx, visited, rects =>
    if idx < mask.length then
      if idx ∈ visited ∨ mask.getD idx 0 = 0 then
        scanLoopF mask width height minPixels fuel (idx + 1) visited rects
      else
        match floodLoopF mask width height (5 * mask.length + 2)
            ⟨insert idx visited, [idx], 0, width, height, 0, 0⟩ with
        | none => none
        | some f =>
          scanLoopF mask width height minPixels fuel (idx + 1) f.visited
            (if minPixels ≤ f.count then
              rects ++ [⟨f.minX, f.minY, f.maxX - f.minX + 1, f.maxY - f.minY + 1⟩]
            else rects)
    else some rects

lemma scanLoopF_sound (mask : List ℕ) (width height minPixels : ℕ) :
    ∀ (fuel idx : ℕ) (visited : Finset ℕ) (rects : List Rect),
      mask.length - idx < fuel →
      scanLoopF mask width height minPixels fuel idx visited rects =
        some (scanLoop mask width height minPixels idx visited rects) := by
  intro fuel
  induction fuel with
  | zero => intro idx visited rects h; omega
  | succ n ih =>
    intro idx visited rects h
    by_cases hlt : idx < mask.length
    · have hflood : floodLoopF mask width height (5 * mask.length + 2)
          ⟨insert idx visited, [idx], 0, width, height, 0, 0⟩ =
          some (floodLoop mask width height ⟨insert idx visited, [idx], 0, width, height, 0, 0⟩) := by
        apply floodLoopF_sound
        have hcard : ((Finset.range mask.length) \ (insert idx visited)).card ≤ mask.length := by
          calc ((Finset.range mask.length) \ (insert idx visited)).card
              ≤ (Finset.range mask.length).card := Finset.card_le_card (Finset.sdiff_subset)
            _ = mask.length := Finset.card_range _
        simp only [fillMeasure, List.length_singleton]
        omega
      by_cases hskip : idx ∈ visited ∨ mask.getD idx 0 = 0
      · rw [scanLoop]
        simp only [dif_pos hlt, if_pos hskip]
        rw [← ih (idx + 1) visited rects (by omega)]
        simp only [scanLoopF]
        rw [if_pos hlt, if_pos hskip]
      · rw [scanLoop]
        simp only [dif_pos hlt, if_neg hskip]
        simp only [scanLoopF, if_pos hlt, if_neg hskip, hflood]
        exact ih (idx + 1) _ _ (by omega)
    · rw [scanLoop]
      simp only [dif_neg hlt]
      simp [scanLoopF, hlt]

/-- Fuel-indexed mirror of `extractConnectedMaskRects`: the outer scan
gets fuel `mask.length + 1` and each flood fill `5 * mask.length + 2`.
It returns `some` exactly when those explicit iteration bounds suffice. -/
def extractConnectedMaskRectsF (mask : List ℕ) (width height minPixels : ℕ) :
    Option (List Rect) :=
  if mask.length ≠ width * height then some []
  else (scanLoopF mask width height minPixels (mask.length + 1) 0 ∅ []).map
    (List.insertionSort rectLE)

/-- The fueled extractor always succeeds and agrees with the extractor. -/
lemma extractF_eq (mask : List ℕ) (width height minPixels : ℕ) :
    extractConnectedMaskRectsF mask width height minPixels =
      some (extractConnectedMaskRects mask width height minPixels) := by
  unfold extractConnectedMaskRectsF extractConnectedMaskRects
  by_cases h : mask.length ≠ width * height
  · simp [h]
  · simp only [if_neg h]
    rw [scanLoopF_sound mask width height minPixels (mask.length + 1) 0 ∅ [] (by omega)]
    rfl

/-- Evaluation bridge: compute the extractor through its fueled mirror. -/
lemma extract_eval (mask : List ℕ) (width height minPixels : ℕ) (L : List Rect)
    (h : extractConnectedMaskRectsF mask width height minPixels = some L) :
    extractConnectedMaskRects mask width height minPixels = L := by
  have := extractF_eq mask width height minPixels
  rw [h] at this
  exact (Option.some_injective _ this).symm

/-- A pixel index is foreground when its mask byte is non-zero (out-of-range
reads count as background, matching `mask[idx] === 0` never being reached
out of range in the source). -/
def fgIdx (mask : List ℕ) (i : ℕ) : Prop := mask.getD i 0 ≠ 0

instance fgIdx.dec (mask : List ℕ) : DecidablePred (fgIdx mask) := fun i => by
  unfold fgIdx
  infer_instance

lemma fgIdx_lt_length (mask : List ℕ) (i : ℕ) (h : fgIdx mask i) : i < mask.length := by
  by_contra hge
  exact h (List.getD_eq_default _ _ (Nat.le_of_not_lt hge))

/-- Grid 4-adjacency of two in-range pixel indices over a `width × height`
canvas: same row and columns differing by one, or same column and rows
differing by one. -/
def AdjP (width height i j : ℕ) : Prop :=
  i < width * height ∧ j < width * height ∧
    ((i / width = j / width ∧ (i % width + 1 = j % width ∨ j % width + 1 = i % width)) ∨
     (i % width = j % width ∧ (i / width + 1 = j / width ∨ j / width + 1 = i / width)))

instance AdjP.dec (width height i j : ℕ) : Decidable (AdjP width height i j) := by
  unfold AdjP
  infer_instance

lemma adjP_symm {width height i j : ℕ} (h : AdjP width height i j) :
    AdjP width height j i := by
  unfold AdjP at *
  tauto

/-- One fg-to-fg 4-adjacency step. -/
def Step (mask : List ℕ) (width height i j : ℕ) : Prop :=
  AdjP width height i j ∧ fgIdx mask i ∧ fgIdx mask j

lemma step_symm {mask : List ℕ} {width height i j : ℕ}
    (h : Step mask width height i j) : Step mask width height j i :=
  ⟨adjP_symm h.1, h.2.2, h.2.1⟩

/-- 4-connectivity reachability between pixel indices: the reflexive
transitive closure of fg-to-fg 4-adjacency steps. The maximal 4-connected
component of a foreground pixel `i` is the set of pixels reachable
from `i`. -/
def Reach (mask : List ℕ) (width height : ℕ) : ℕ → ℕ → Prop :=
  Relation.ReflTransGen (Step mask width height)

lemma reach_trans {mask : List ℕ} {width height a b c : ℕ}
    (h1 : Reach mask width height a b) (h2 : Reach mask width height b c) :
    Reach mask width height a c :=
  Relation.ReflTransGen.trans h1 h2

lemma reach_symm {mask : List ℕ} {width height a b : ℕ}
    (h : Reach mask width height a b) : Reach mask width height b a :=
  Relation.ReflTransGen.symmetric (fun _ _ hs => step_symm hs) h

lemma reach_fg {mask : List ℕ} {width height a b : ℕ}
    (ha : fgIdx mask a) (h : Reach mask width height a b) : fgIdx mask b := by
  induction h with
  | refl => exact ha
  | tail _ hstep ih => exact hstep.2.2

lemma reach_lt {mask : List ℕ} {width height a b : ℕ}
    (ha : a < width * height) (h : Reach mask width height a b) :
    b < width * height := by
  induction h with
  | refl => exact ha
  | tail _ hstep ih => exact hstep.1.2.1

/-- One step of the closure computation: add every in-range foreground
pixel adjacent to some foreground member of `S`. -/
def closeStep (mask : List ℕ) (width height : ℕ) (S : Finset ℕ) : Finset ℕ :=
  S ∪ (Finset.range (width * height)).filter
    (fun j => fgIdx mask j ∧ ∃ i ∈ S, AdjP width height i j ∧ fgIdx mask i)

/-- The 4-connected reachable set (component) of a pixel index, computed
by iterating the one-step closure to a fixed point; `width*height + 1`
iterations always reach the fixed point. -/
def reachSet (mask : List ℕ) (width height i : ℕ) : Finset ℕ :=
  (closeStep mask width height)^[width * height + 1] {i}

lemma subset_closeStep (mask : List ℕ) (width height : ℕ) (S : Finset ℕ) :
    S ⊆ closeStep mask width height S :=
  Finset.subset_union_left

lemma iterate_closeStep_subset (mask : List ℕ) (width height : ℕ) (S : Finset ℕ) :
    ∀ n, S ⊆ (closeStep mask width height)^[n] S := by
  intro n
  induction n with
  | zero => simp
  | succ m ih =>
    rw [Function.iterate_succ_apply']
    exact ih.trans (subset_closeStep _ _ _ _)

lemma iterate_closeStep_bound (mask : List ℕ) (width height i : ℕ) :
    ∀ n, (closeStep mask width height)^[n] {i} ⊆ insert i (Finset.range (width * height)) := by
  intro n
  induction n with
  | zero => simp
  | succ m ih =>
    rw [Function.iterate_succ_apply']
    intro a ha
    rcases Finset.mem_union.mp ha with h | h
    · exact ih h
    · rcases Finset.mem_filter.mp h with ⟨hr, _⟩
      exact Finset.mem_insert_of_mem hr

lemma closeStep_fix_exists (mask : List ℕ) (width height i : ℕ) :
    ∃ n ≤ width * height,
      closeStep mask width height ((closeStep mask width height)^[n] {i}) =
        (closeStep mask width height)^[n] {i} := by
  by_contra hcon
  push_neg at hcon
  have hgrow : ∀ n, n ≤ width * height + 1 →
      n + 1 ≤ ((closeStep mask width height)^[n] {i}).card := by
    intro n
    induction n with
    | zero => intro _; simp
    | succ m ih =>
      intro hle
      have hm : m ≤ width * height := by omega
      have hne := hcon m hm
      have hss : (closeStep mask width height)^[m] {i} ⊂
          closeStep mask width height ((closeStep mask width height)^[m] {i}) :=
        (subset_closeStep _ _ _ _).ssubset_of_ne (fun h => hne h.symm)
      have := Finset.card_lt_card hss
      rw [Function.iterate_succ_apply']
      have := ih (by omega)
      omega
  have hbig := hgrow (width * height + 1) (le_refl _)
  have hsmall : ((closeStep mask width height)^[width * height + 1] {i}).card ≤
      width * height + 1 := by
    calc ((closeStep mask width height)^[width * height + 1] {i}).card
        ≤ (insert i (Finset.range (width * height))).card :=
          Finset.card_le_card (iterate_closeStep_bound _ _ _ _ _)
      _ ≤ (Finset.range (width * height)).card + 1 := Finset.card_insert_le _ _
      _ = width * height + 1 := by rw [Finset.card_range]
  omega

lemma closeStep_reachSet (mask : List ℕ) (width height i : ℕ) :
    closeStep mask width height (reachSet mask width height i) =
      reachSet mask width height i := by
  obtain ⟨n, hn, hfix⟩ := closeStep_fix_exists mask width height i
  have hstable : ∀ m, (closeStep mask width height)^[n + m] {i} =
      (closeStep mask width height)^[n] {i} := by
    intro m
    induction m with
    | zero => rfl
    | succ k ih =>
      have : n + (k + 1) = (n + k) + 1 := by omega
      rw [this, Function.iterate_succ_apply', ih, hfix]
  have heq : reachSet mask width height i = (closeStep mask width height)^[n] {i} := by
    unfold reachSet
    have : width * height + 1 = n + (width * height + 1 - n) := by omega
    rw [this, hstable]
  rw [heq, hfix]

lemma mem_reachSet {mask : List ℕ} {width height i j : ℕ} :
    j ∈ reachSet mask width height i ↔ Reach mask width height i j := by
  constructor
  · have forward : ∀ n, ∀ j ∈ (closeStep mask width height)^[n] {i},
        Reach mask width height i j := by
      intro n
      induction n with
      | zero =>
        intro j hj
        simp only [Function.iterate_zero_apply, Finset.mem_singleton] at hj
        exact hj ▸ Relation.ReflTransGen.refl
      | succ m ih =>
        intro j hj
        rw [Function.iterate_succ_apply'] at hj
        rcases Finset.mem_union.mp hj with h | h
        · exact ih j h
        · rcases Finset.mem_filter.mp h with ⟨_, hfgj, a, haS, hadj, hfga⟩
          exact Relation.ReflTransGen.tail (ih a haS) ⟨hadj, hfga, hfgj⟩
    exact forward _ j
  · intro hreach
    induction hreach with
    | refl =>
      exact iterate_closeStep_subset mask width height {i} _ (Finset.mem_singleton_self i)
    | tail hab hstep ih =>
      rename_i b c
      rw [← closeStep_reachSet mask width height i]
      apply Finset.mem_union_right
      apply Finset.mem_filter.mpr
      exact ⟨Finset.mem_range.mpr hstep.1.2.1, hstep.2.2, b, ih, hstep.1, hstep.2.1⟩

instance Reach.dec (mask : List ℕ) (width height i j : ℕ) :
    Decidable (Reach mask width height i j) :=
  decidable_of_iff (j ∈ reachSet mask width height i) mem_reachSet

lemma self_mem_reachSet (mask : List ℕ) (width height i : ℕ) :
    i ∈ reachSet mask width height i :=
  mem_reachSet.mpr Relation.ReflTransGen.refl

lemma reachSet_nonempty (mask : List ℕ) (width height i : ℕ) :
    (reachSet mask width height i).Nonempty :=
  ⟨i, self_mem_reachSet mask width height i⟩

lemma reachSet_eq_of_reach {mask : List ℕ} {width height i j : ℕ}
    (h : Reach mask width height i j) :
    reachSet mask width height i = reachSet mask width height j := by
  ext a
  simp only [mem_reachSet]
  constructor
  · intro ha
    exact reach_trans (reach_symm h) ha
  · intro ha
    exact reach_trans h ha

lemma reachSet_disjoint {mask : List ℕ} {width height i j : ℕ}
    (h : ¬ Reach mask width height i j) :
    Disjoint (reachSet mask width height i) (reachSet mask width height j) := by
  rw [Finset.disjoint_left]
  intro a hai haj
  rw [mem_reachSet] at hai haj
  exact h (reach_trans hai (reach_symm haj))

lemma dims_pos {width height i : ℕ} (hi : i < width * height) : 0 < width ∧ 0 < height := by
  constructor
  · rcases Nat.eq_zero_or_pos width with h | h
    · subst h
      simp at hi
    · exact h
  · rcases Nat.eq_zero_or_pos height with h | h
    · subst h
      simp at hi
    · exact h

lemma coords_lt {width height i : ℕ} (hi : i < width * height) :
    i % width < width ∧ i / width < height := by
  obtain ⟨hw, hh⟩ := dims_pos hi
  refine ⟨Nat.mod_lt _ hw, ?_⟩
  rw [Nat.div_lt_iff_lt_mul hw]
  exact Nat.lt_of_lt_of_le hi (le_of_eq (Nat.mul_comm _ _))

lemma coord_decomp (width i : ℕ) : (i / width) * width + i % width = i := by
  rw [Nat.mul_comm]
  exact Nat.div_add_mod i width

lemma coordIdx_mod {x : ℕ} (y : ℕ) {width : ℕ} (hx : x < width) :
    (y * width + x) % width = x := by
  rw [Nat.add_comm, Nat.add_mul_mod_self_right]
  exact Nat.mod_eq_of_lt hx

lemma coordIdx_div {x : ℕ} (y : ℕ) {width : ℕ} (hx : x < width) :
    (y * width + x) / width = y := by
  have hw : 0 < width := by omega
  rw [Nat.add_comm, Nat.add_mul_div_right _ _ hw, Nat.div_eq_of_lt hx]
  omega

lemma coordIdx_lt {x y width height : ℕ} (hx : x < width) (hy : y < height) :
    y * width + x < width * height := by
  calc y * width + x < y * width + width := by omega
    _ = (y + 1) * width := by ring
    _ ≤ height * width := Nat.mul_le_mul_right _ (by omega)
    _ = width * height := Nat.mul_comm _ _

/-- The action of a successful in-bounds `pushIfValid` call expressed on
the pixel index: skip if visited or background, else mark and push. -/
def pushNbr (mask : List ℕ) (s : FillState) (n : ℕ) : FillState :=
  if n ∈ s.visited ∨ mask.getD n 0 = 0 then s
  else { s with visited := insert n s.visited, queue := n :: s.queue }

lemma pushIfValid_inBounds (mask : List ℕ) (width height : ℕ) (s : FillState)
    {x y : ℕ} (hx : x < width) (hy : y < height) :
    pushIfValid mask width height s (x : ℤ) (y : ℤ) = pushNbr mask s (y * width + x) := by
  unfold pushIfValid pushNbr
  have hin : ¬((x : ℤ) < 0 ∨ (y : ℤ) < 0 ∨ (width : ℤ) ≤ (x : ℤ) ∨ (height : ℤ) ≤ (y : ℤ)) := by
    push_neg
    refine ⟨by positivity, by positivity, ?_, ?_⟩ <;> exact_mod_cast by omega
  rw [if_neg hin]
  have hidx : ((y : ℤ) * (width : ℤ) + (x : ℤ)).toNat = y * width + x := by
    push_cast
    omega
  rw [hidx]

lemma pushIfValid_outBounds (mask : List ℕ) (width height : ℕ) (s : FillState)
    {x y : ℤ} (hout : x < 0 ∨ y < 0 ∨ (width : ℤ) ≤ x ∨ (height : ℤ) ≤ y) :
    pushIfValid mask width height s x y = s := by
  unfold pushIfValid
  rw [if_pos hout]

/-- The in-range 4-neighbours of pixel index `c`, in the order the flood
fill tries them: left, right, up, down. -/
def nbrList (width height c : ℕ) : List ℕ :=
  (if c % width = 0 then [] else [c - 1]) ++
  (if c % width + 1 < width then [c + 1] else []) ++
  (if c / width = 0 then [] else [c - width]) ++
  (if c / width + 1 < height then [c + width] else [])

lemma push_left (mask : List ℕ) (width height : ℕ) (s : FillState) (c : ℕ)
    (hc : c < width * height) :
    pushIfValid mask width height s ((c % width : ℕ) - 1 : ℤ) ((c / width : ℕ) : ℤ) =
      List.foldl (pushNbr mask) s (if c % width = 0 then [] else [c - 1]) := by
  obtain ⟨hx, hy⟩ := coords_lt hc
  by_cases h0 : c % width = 0
  · rw [if_pos h0, h0]
    simp only [List.foldl_nil]
    exact pushIfValid_outBounds mask width height s (Or.inl (by omega))
  · rw [if_neg h0]
    have hcast : ((c % width : ℕ) : ℤ) - 1 = ((c % width - 1 : ℕ) : ℤ) := by
      have : 1 ≤ c % width := by omega
      push_cast [this]
      omega
    rw [hcast, pushIfValid_inBounds mask width height s (by omega : c % width - 1 < width) hy]
    have hidx : (c / width) * width + (c % width - 1) = c - 1 := by
      have := coord_decomp width c
      omega
    rw [hidx]
    simp [List.foldl]

lemma push_right (mask : List ℕ) (width height : ℕ) (s : FillState) (c : ℕ)
    (hc : c < width * height) :
    pushIfValid mask width height s ((c % width : ℕ) + 1 : ℤ) ((c / width : ℕ) : ℤ) =
      List.foldl (pushNbr mask) s (if c % width + 1 < width then [c + 1] else []) := by
  obtain ⟨hx, hy⟩ := coords_lt hc
  by_cases h0 : c % width + 1 < width
  · rw [if_pos h0]
    have hcast : ((c % width : ℕ) : ℤ) + 1 = ((c % width + 1 : ℕ) : ℤ) := by push_cast; omega
    rw [hcast, pushIfValid_inBounds mask width height s h0 hy]
    have hidx : (c / width) * width + (c % width + 1) = c + 1 := by
      have := coord_decomp width c
      omega
    rw [hidx]
    simp [List.foldl]
  · rw [if_neg h0]
    simp only [List.foldl_nil]
    refine pushIfValid_outBounds mask width height s (Or.inr (Or.inr (Or.inl ?_)))
    push_cast
    omega

lemma push_up (mask : List ℕ) (width height : ℕ) (s : FillState) (c : ℕ)
    (hc : c < width * height) :
    pushIfValid mask width height s ((c % width : ℕ) : ℤ) ((c / width : ℕ) - 1 : ℤ) =
      List.foldl (pushNbr mask) s (if c / width = 0 then [] else [c - width]) := by
  obtain ⟨hx, hy⟩ := coords_lt hc
  by_cases h0 : c / width = 0
  · rw [if_pos h0, h0]
    simp only [List.foldl_nil]
    exact pushIfValid_outBounds mask width height s (Or.inr (Or.inl (by omega)))
  · rw [if_neg h0]
    have hcast : ((c / width : ℕ) : ℤ) - 1 = ((c / width - 1 : ℕ) : ℤ) := by
      have : 1 ≤ c / width := Nat.pos_of_ne_zero h0
      push_cast [this]
      omega
    rw [hcast, pushIfValid_inBounds mask width height s hx (by omega : c / width - 1 < height)]
    have hidx : (c / width - 1) * width + c % width = c - width := by
      have hd := coord_decomp width c
      have h1 : 1 ≤ c / width := Nat.pos_of_ne_zero h0
      have : (c / width - 1) * width = (c / width) * width - width :=
        Nat.sub_one_mul _ _
      have hwle : width ≤ (c / width) * width := by
        calc width = 1 * width := (Nat.one_mul _).symm
          _ ≤ (c / width) * width := Nat.mul_le_mul_right _ h1
      omega
    rw [hidx]
    simp [List.foldl]

lemma push_down (mask : List ℕ) (width height : ℕ) (s : FillState) (c : ℕ)
    (hc : c < width * height) :
    pushIfValid mask width height s ((c % width : ℕ) : ℤ) ((c / width : ℕ) + 1 : ℤ) =
      List.foldl (pushNbr mask) s (if c / width + 1 < height then [c + width] else []) := by
  obtain ⟨hx, hy⟩ := coords_lt hc
  by_cases h0 : c / width + 1 < height
  · rw [if_pos h0]
    have hcast : ((c / width : ℕ) : ℤ) + 1 = ((c / width + 1 : ℕ) : ℤ) := by push_cast; omega
    rw [hcast, pushIfValid_inBounds mask width height s hx h0]
    have hidx : (c / width + 1) * width + c % width = c + width := by
      have := coord_decomp width c
      have : (c / width + 1) * width = (c / width) * width + width := by ring
      omega
    rw [hidx]
    simp [List.foldl]
  · rw [if_neg h0]
    simp only [List.foldl_nil]
    refine pushIfValid_outBounds mask width height s (Or.inr (Or.inr (Or.inr ?_)))
    push_cast
    omega

/-- One flood-fill iteration is: update the accumulators with `current`,
then fold the push over the in-range 4-neighbours of `current`. -/
lemma stepState_eq_foldl (mask : List ℕ) (width height : ℕ) (s : FillState) (c : ℕ)
    (rest : List ℕ) (hc : c < width * height) :
    stepState mask width height s c rest =
      List.foldl (pushNbr mask)
        { s with queue := rest, count := s.count + 1,
                 minX := min s.minX (c % width), minY := min s.minY (c / width),
                 maxX := max s.maxX (c % width), maxY := max s.maxY (c / width) }
        (nbrList width height c) := by
  unfold stepState nbrList
  dsimp only
  rw [List.foldl_append, List.foldl_append, List.foldl_append]
  rw [push_left mask width height _ c hc, push_right mask width height _ c hc,
    push_up mask width height _ c hc, push_down mask width height _ c hc]

lemma mem_nbrList_adj {width height c n : ℕ} (hc : c < width * height)
    (hn : n ∈ nbrList width height c) : AdjP width height c n := by
  obtain ⟨hx, hy⟩ := coords_lt hc
  have hd := coord_decomp width c
  unfold nbrList at hn
  simp only [List.mem_append] at hn
  rcases hn with ((hl | hr) | hu) | hdn
  · by_cases h0 : c % width = 0
    · rw [if_pos h0] at hl
      simp at hl
    · rw [if_neg h0] at hl
      simp only [List.mem_singleton] at hl
      subst hl
      have hidx : (c / width) * width + (c % width - 1) = c - 1 := by omega
      have hlt : c - 1 < width * height := by omega
      have hmod : (c - 1) % width = c % width - 1 := by
        rw [← hidx]
        exact coordIdx_mod _ (by omega)
      have hdiv : (c - 1) / width = c / width := by
        rw [← hidx]
        exact coordIdx_div _ (by omega)
      exact ⟨hc, hlt, Or.inl ⟨hdiv.symm, Or.inr (by omega)⟩⟩
  · by_cases h0 : c % width + 1 < width
    · rw [if_pos h0] at hr
      simp only [List.mem_singleton] at hr
      subst hr
      have hidx : (c / width) * width + (c % width + 1) = c + 1 := by omega
      have hmod : (c + 1) % width = c % width + 1 := by
        rw [← hidx]
        exact coordIdx_mod _ h0
      have hdiv : (c + 1) / width = c / width := by
        rw [← hidx]
        exact coordIdx_div _ h0
      refine ⟨hc, ?_, Or.inl ⟨hdiv.symm, Or.inl (by omega)⟩⟩
      rw [← hidx]
      exact coordIdx_lt h0 hy
    · rw [if_neg h0] at hr
      simp at hr
  · by_cases h0 : c / width = 0
    · rw [if_pos h0] at hu
      simp at hu
    · rw [if_neg h0] at hu
      simp only [List.mem_singleton] at hu
      subst hu
      have h1 : 1 ≤ c / width := Nat.pos_of_ne_zero h0
      have hgew : width ≤ (c / width) * width := by
        calc width = 1 * width := (Nat.one_mul _).symm
          _ ≤ (c / width) * width := Nat.mul_le_mul_right _ h1
      have hidx : (c / width - 1) * width + c % width = c - width := by
        have : (c / width - 1) * width = (c / width) * width - width := Nat.sub_one_mul _ _
        omega
      have hmod : (c - width) % width = c % width := by
        rw [← hidx]
        exact coordIdx_mod _ hx
      have hdiv : (c - width) / width = c / width - 1 := by
        rw [← hidx]
        exact coordIdx_div _ hx
      exact ⟨hc, by omega, Or.inr ⟨hmod.symm, Or.inr (by omega)⟩⟩
  · by_cases h0 : c / width + 1 < height
    · rw [if_pos h0] at hdn
      simp only [List.mem_singleton] at hdn
      subst hdn
      have hidx : (c / width + 1) * width + c % width = c + width := by
        have : (c / width + 1) * width = (c / width) * width + width := by ring
        omega
      have hmod : (c + width) % width = c % width := by
        rw [← hidx]
        exact coordIdx_mod _ hx
      have hdiv : (c + width) / width = c / width + 1 := by
        rw [← hidx]
        exact coordIdx_div _ hx
      refine ⟨hc, ?_, Or.inr ⟨hmod.symm, Or.inl (by omega)⟩⟩
      rw [← hidx]
      exact coordIdx_lt hx h0
    · rw [if_neg h0] at hdn
      simp at hdn

lemma adj_mem_nbrList {width height c j : ℕ} (hadj : AdjP width height c j) :
    j ∈ nbrList width height c := by
  obtain ⟨hc, hj, hcase⟩ := hadj
  obtain ⟨hxc, hyc⟩ := coords_lt hc
  obtain ⟨hxj, hyj⟩ := coords_lt hj
  have ec := coord_decomp width c
  have ej := coord_decomp width j
  unfold nbrList
  rcases hcase with ⟨hrow, hstep⟩ | ⟨hcol, hstep⟩
  · rw [← hrow] at ej
    rcases hstep with h | h
    · have hj1 : j = c + 1 := by omega
      have hcond : c % width + 1 < width := by omega
      subst hj1
      simp [hcond]
    · have hj1 : j = c - 1 ∧ 1 ≤ c := by omega
      have hcond : ¬ (c % width = 0) := by omega
      rw [hj1.1]
      simp [hcond]
  · rcases hstep with h | h
    · have hexp : (c / width + 1) * width = (c / width) * width + width := by ring
      rw [← h, hexp] at ej
      rw [← hcol] at ej
      have hj1 : j = c + width := by omega
      have hcond : c / width + 1 < height := by omega
      subst hj1
      simp [hcond]
    · have hexp : (j / width + 1) * width = (j / width) * width + width := by ring
      rw [← h, hexp] at ec
      rw [hcol] at ec
      have hj1 : j = c - width ∧ width ≤ c := by omega
      have hcond : ¬ (c / width = 0) := by
        intro hz
        rw [hz] at h
        simp at h
      rw [hj1.1]
      simp [hcond]

lemma pushNbr_visited_mono (mask : List ℕ) (s : FillState) (n : ℕ) :
    s.visited ⊆ (pushNbr mask s n).visited := by
  unfold pushNbr
  split
  · exact Finset.Subset.refl _
  · exact Finset.subset_insert _ _

lemma foldl_pushNbr_visited_mono (mask : List ℕ) (ns : List ℕ) :
    ∀ s : FillState, s.visited ⊆ (List.foldl (pushNbr mask) s ns).visited := by
  induction ns with
  | nil => intro s; exact Finset.Subset.refl _
  | cons n ns ih =>
    intro s
    simp only [List.foldl_cons]
    exact (pushNbr_visited_mono mask s n).trans (ih _)

lemma pushNbr_queue_mono (mask : List ℕ) (s : FillState) (n : ℕ) {j : ℕ}
    (hj : j ∈ s.queue) : j ∈ (pushNbr mask s n).queue := by
  unfold pushNbr
  split
  · exact hj
  · exact List.mem_cons_of_mem _ hj

lemma foldl_pushNbr_queue_mono (mask : List ℕ) (ns : List ℕ) :
    ∀ (s : FillState) (j : ℕ), j ∈ s.queue → j ∈ (List.foldl (pushNbr mask) s ns).queue := by
  induction ns with
  | nil => intro s j hj; exact hj
  | cons n ns ih =>
    intro s j hj
    simp only [List.foldl_cons]
    exact ih _ _ (pushNbr_queue_mono mask s n hj)

lemma pushNbr_self_mem (mask : List ℕ) (s : FillState) (n : ℕ) (hfg : fgIdx mask n) :
    n ∈ (pushNbr mask s n).visited := by
  unfold pushNbr
  split
  · rename_i h
    rcases h with h | h
    · exact h
    · exact absurd h hfg
  · exact Finset.mem_insert_self _ _

lemma foldl_pushNbr_covers (mask : List ℕ) (ns : List ℕ) :
    ∀ (s : FillState) (n : ℕ), n ∈ ns → fgIdx mask n →
      n ∈ (List.foldl (pushNbr mask) s ns).visited := by
  induction ns with
  | nil => intro s n hn; simp at hn
  | cons m ns ih =>
    intro s n hn hfg
    simp only [List.foldl_cons]
    rcases List.mem_cons.mp hn with rfl | hn
    · exact foldl_pushNbr_visited_mono mask ns _ (pushNbr_self_mem mask s n hfg)
    · exact ih _ n hn hfg

lemma pushNbr_stats (mask : List ℕ) (s : FillState) (n : ℕ) :
    (pushNbr mask s n).count = s.count ∧ (pushNbr mask s n).minX = s.minX ∧
    (pushNbr mask s n).minY = s.minY ∧ (pushNbr mask s n).maxX = s.maxX ∧
    (pushNbr mask s n).maxY = s.maxY := by
  unfold pushNbr
  split <;> simp

lemma foldl_pushNbr_stats (mask : List ℕ) (ns : List ℕ) :
    ∀ s : FillState,
      (List.foldl (pushNbr mask) s ns).count = s.count ∧
      (List.foldl (pushNbr mask) s ns).minX = s.minX ∧
      (List.foldl (pushNbr mask) s ns).minY = s.minY ∧
      (List.foldl (pushNbr mask) s ns).maxX = s.maxX ∧
      (List.foldl (pushNbr mask) s ns).maxY = s.maxY := by
  induction ns with
  | nil => intro s; simp
  | cons n ns ih =>
    intro s
    simp only [List.foldl_cons]
    obtain ⟨h1, h2, h3, h4, h5⟩ := pushNbr_stats mask s n
    obtain ⟨g1, g2, g3, g4, g5⟩ := ih (pushNbr mask s n)
    exact ⟨g1.trans h1, g2.trans h2, g3.trans h3, g4.trans h4, g5.trans h5⟩

/-- Invariant tying a flood-fill state to the set `P` of already-processed
pixels: the visited set splits into the pre-visited set `V0`, `P`, and the
pending stack; pending pixels are reachable from the seed, unvisited
before this fill, not yet processed, and pairwise distinct. -/
structure MidInv (mask : List ℕ) (width height : ℕ) (V0 : Finset ℕ) (seed : ℕ)
    (P : Finset ℕ) (s : FillState) : Prop where
  hvis : s.visited = V0 ∪ P ∪ s.queue.toFinset
  hQ : ∀ j ∈ s.queue, Reach mask width height seed j
  hV0Q : ∀ j ∈ s.queue, j ∉ V0
  hPQ : ∀ j ∈ s.queue, j ∉ P
  hnodup : s.queue.Nodup

lemma pushNbr_midInv {mask : List ℕ} {width height : ℕ} {V0 : Finset ℕ} {seed : ℕ}
    {P : Finset ℕ} {s : FillState} {c n : ℕ}
    (hcR : Reach mask width height seed c) (hfgc : fgIdx mask c)
    (hadj : AdjP width height c n)
    (hinv : MidInv mask width height V0 seed P s) :
    MidInv mask width height V0 seed P (pushNbr mask s n) := by
  unfold pushNbr
  split
  · exact hinv
  · rename_i hcondn
    push_neg at hcondn
    obtain ⟨hnvis, hnfg⟩ := hcondn
    have hreach : Reach mask width height seed n :=
      Relation.ReflTransGen.tail hcR ⟨hadj, hfgc, hnfg⟩
    have hnV0 : n ∉ V0 := fun h => hnvis (by
      rw [hinv.hvis]
      exact Finset.mem_union_left _ (Finset.mem_union_left _ h))
    have hnP : n ∉ P := fun h => hnvis (by
      rw [hinv.hvis]
      exact Finset.mem_union_left _ (Finset.mem_union_right _ h))
    have hnQ : n ∉ s.queue := fun h => hnvis (by
      rw [hinv.hvis]
      exact Finset.mem_union_right _ (List.mem_toFinset.mpr h))
    refine ⟨?_, ?_, ?_, ?_, ?_⟩
    · show insert n s.visited = V0 ∪ P ∪ (n :: s.queue).toFinset
      rw [hinv.hvis, List.toFinset_cons]
      ext a
      simp only [Finset.mem_insert, Finset.mem_union]
      tauto
    · intro j hj
      rcases List.mem_cons.mp hj with rfl | hj
      · exact hreach
      · exact hinv.hQ j hj
    · intro j hj
      rcases List.mem_cons.mp hj with rfl | hj
      · exact hnV0
      · exact hinv.hV0Q j hj
    · intro j hj
      rcases List.mem_cons.mp hj with rfl | hj
      · exact hnP
      · exact hinv.hPQ j hj
    · exact List.nodup_cons.mpr ⟨hnQ, hinv.hnodup⟩

lemma foldl_pushNbr_midInv {mask : List ℕ} {width height : ℕ} {V0 : Finset ℕ} {seed : ℕ}
    {P : Finset ℕ} {c : ℕ}
    (hcR : Reach mask width height seed c) (hfgc : fgIdx mask c) :
    ∀ (ns : List ℕ), (∀ n ∈ ns, AdjP width height c n) →
      ∀ s : FillState, MidInv mask width height V0 seed P s →
        MidInv mask width height V0 seed P (List.foldl (pushNbr mask) s ns) := by
  intro ns
  induction ns with
  | nil => intro _ s hs; exact hs
  | cons n ns ih =>
    intro hadj s hs
    simp only [List.foldl_cons]
    exact ih (fun m hm => hadj m (List.mem_cons_of_mem _ hm)) _
      (pushNbr_midInv hcR hfgc (hadj n (List.mem_cons_self _ _)) hs)

lemma flood_final (mask : List ℕ) (width height : ℕ) (V0 : Finset ℕ) (seed : ℕ)
    (hV0 : ∀ j ∈ V0, ¬ Reach mask width height seed j)
    (s : FillState) (P : Finset ℕ) (hq : s.queue = [])
    (hinv : MidInv mask width height V0 seed P s)
    (hP : ∀ p ∈ P, Reach mask width height seed p)
    (hclosed : ∀ p ∈ P, ∀ j, Step mask width height p j → j ∈ s.visited)
    (hseed : seed ∈ P ∨ seed ∈ s.queue)
    (hcount : s.count = P.card)
    (hminX : s.minX = P.fold min width (fun i => i % width))
    (hminY : s.minY = P.fold min height (fun i => i / width))
    (hmaxX : s.maxX = P.fold max 0 (fun i => i % width))
    (hmaxY : s.maxY = P.fold max 0 (fun i => i / width)) :
    s = ⟨V0 ∪ reachSet mask width height seed, [],
         (reachSet mask width height seed).card,
         (reachSet mask width height seed).fold min width (fun i => i % width),
         (reachSet mask width height seed).fold min height (fun i => i / width),
         (reachSet mask width height seed).fold max 0 (fun i => i % width),
         (reachSet mask width height seed).fold max 0 (fun i => i / width)⟩ := by
  have hvis' : s.visited = V0 ∪ P := by
    rw [hinv.hvis, hq]
    simp
  have hsup : ∀ j, Reach mask width height seed j → j ∈ P := by
    intro j hj
    induction hj with
    | refl =>
      rcases hseed with h | h
      · exact h
      · rw [hq] at h
        simp at h
    | tail hab hstep ih =>
      rename_i b c
      have hcV0 : c ∉ V0 := fun hmem => hV0 c hmem (Relation.ReflTransGen.tail hab hstep)
      have hcvis := hclosed b ih c hstep
      rw [hvis'] at hcvis
      rcases Finset.mem_union.mp hcvis with h | h
      · exact absurd h hcV0
      · exact h
  have hPC : P = reachSet mask width height seed := by
    apply Finset.Subset.antisymm
    · intro p hp
      exact mem_reachSet.mpr (hP p hp)
    · intro j hj
      exact hsup j (mem_reachSet.mp hj)
  obtain ⟨v, q, cnt, mnx, mny, mxx, mxy⟩ := s
  simp only at hvis' hq hcount hminX hminY hmaxX hmaxY
  subst hq hvis' hcount hminX hminY hmaxX hmaxY
  simp only [FillState.mk.injEq]
  rw [hPC]
  simp

lemma floodLoop_correct (mask : List ℕ) (width height : ℕ) (V0 : Finset ℕ) (seed : ℕ)
    (hseedfg : fgIdx mask seed) (hseedlt : seed < width * height)
    (hV0 : ∀ j ∈ V0, ¬ Reach mask width height seed j) :
    ∀ (n : ℕ) (s : FillState) (P : Finset ℕ),
      fillMeasure mask.length s ≤ n →
      MidInv mask width height V0 seed P s →
      (∀ p ∈ P, Reach mask width height seed p) →
      (∀ p ∈ P, ∀ j, Step mask width height p j → j ∈ s.visited) →
      (seed ∈ P ∨ seed ∈ s.queue) →
      s.count = P.card →
      s.minX = P.fold min width (fun i => i % width) →
      s.minY = P.fold min height (fun i => i / width) →
      s.maxX = P.fold max 0 (fun i => i % width) →
      s.maxY = P.fold max 0 (fun i => i / width) →
      floodLoop mask width height s =
        ⟨V0 ∪ reachSet mask width height seed, [],
         (reachSet mask width height seed).card,
         (reachSet mask width height seed).fold min width (fun i => i % width),
         (reachSet mask width height seed).fold min height (fun i => i / width),
         (reachSet mask width height seed).fold max 0 (fun i => i % width),
         (reachSet mask width height seed).fold max 0 (fun i => i / width)⟩ := by
  intro n
  induction n with
  | zero =>
    intro s P hm hinv hP hclosed hseed hcount hminX hminY hmaxX hmaxY
    have hq : s.queue = [] := by
      have : s.queue.length = 0 := by
        have := hm
        unfold fillMeasure at this
        omega
      exact List.length_eq_zero.mp this
    rw [floodLoop_nil _ _ _ _ hq]
    exact flood_final mask width height V0 seed hV0 s P hq hinv hP hclosed hseed
      hcount hminX hminY hmaxX hmaxY
  | succ m ih =>
    intro s P hm hinv hP hclosed hseed hcount hminX hminY hmaxX hmaxY
    cases hq : s.queue with
    | nil =>
      rw [floodLoop_nil _ _ _ _ hq]
      exact flood_final mask width height V0 seed hV0 s P hq hinv hP hclosed hseed
        hcount hminX hminY hmaxX hmaxY
    | cons c rest =>
      rw [floodLoop_cons _ _ _ _ _ _ hq]
      have hcmem : c ∈ s.queue := by
        rw [hq]
        exact List.mem_cons_self _ _
      have hcR : Reach mask width height seed c := hinv.hQ c hcmem
      have hfgc : fgIdx mask c := reach_fg hseedfg hcR
      have hclt : c < width * height := reach_lt hseedlt hcR
      have hcnP : c ∉ P := hinv.hPQ c hcmem
      have hcnV0 : c ∉ V0 := hinv.hV0Q c hcmem
      have hcnrest : c ∉ rest := by
        have := hinv.hnodup
        rw [hq] at this
        exact (List.nodup_cons.mp this).1
      have hrw := stepState_eq_foldl mask width height s c rest hclt
      have hbaseInv : MidInv mask width height V0 seed (insert c P)
          ({ s with queue := rest, count := s.count + 1,
                    minX := min s.minX (c % width), minY := min s.minY (c / width),
                    maxX := max s.maxX (c % width), maxY := max s.maxY (c / width) } : FillState) := by
        refine ⟨?_, ?_, ?_, ?_, ?_⟩
        · show s.visited = V0 ∪ insert c P ∪ rest.toFinset
          rw [hinv.hvis, hq, List.toFinset_cons]
          ext a
          simp only [Finset.mem_union, Finset.mem_insert]
          tauto
        · intro j hj
          exact hinv.hQ j (by rw [hq]; exact List.mem_cons_of_mem _ hj)
        · intro j hj
          exact hinv.hV0Q j (by rw [hq]; exact List.mem_cons_of_mem _ hj)
        · intro j hj
          intro hmem
          rcases Finset.mem_insert.mp hmem with rfl | hmem
          · exact hcnrest hj
          · exact hinv.hPQ j (by rw [hq]; exact List.mem_cons_of_mem _ hj) hmem
        · have := hinv.hnodup
          rw [hq] at this
          exact (List.nodup_cons.mp this).2
      have hmid : MidInv mask width height V0 seed (insert c P)
          (stepState mask width height s c rest) := by
        rw [hrw]
        exact foldl_pushNbr_midInv hcR hfgc (nbrList width height c)
          (fun m hm => mem_nbrList_adj hclt hm) _ hbaseInv
      have hstats := foldl_pushNbr_stats mask (nbrList width height c)
        ({ s with queue := rest, count := s.count + 1,
                  minX := min s.minX (c % width), minY := min s.minY (c / width),
                  maxX := max s.maxX (c % width), maxY := max s.maxY (c / width) } : FillState)
      apply ih (stepState mask width height s c rest) (insert c P)
      · have := stepState_measure mask width height s c rest hq
        omega
      · exact hmid
      · intro p hp
        rcases Finset.mem_insert.mp hp with heq | hp
        · exact heq ▸ hcR
        · exact hP p hp
      · intro p hp j hstep
        rcases Finset.mem_insert.mp hp with heq | hp
        · rw [heq] at hstep
          rw [hrw]
          exact foldl_pushNbr_covers mask (nbrList width height c) _ j
            (adj_mem_nbrList hstep.1) hstep.2.2
        · have hjvis := hclosed p hp j hstep
          rw [hrw]
          exact foldl_pushNbr_visited_mono mask (nbrList width height c) _ hjvis
      · rcases hseed with h | h
        · exact Or.inl (Finset.mem_insert_of_mem h)
        · rw [hq] at h
          rcases List.mem_cons.mp h with rfl | h
          · exact Or.inl (Finset.mem_insert_self _ _)
          · refine Or.inr ?_
            rw [hrw]
            exact foldl_pushNbr_queue_mono mask (nbrList width height c) _ seed h
      · rw [hrw, hstats.1]
        simp only [hcount]
        rw [Finset.card_insert_of_not_mem hcnP]
      · rw [hrw, hstats.2.1]
        simp only [hminX]
        rw [Finset.fold_insert hcnP, min_comm]
      · rw [hrw, hstats.2.2.1]
        simp only [hminY]
        rw [Finset.fold_insert hcnP, min_comm]
      · rw [hrw, hstats.2.2.2.1]
        simp only [hmaxX]
        rw [Finset.fold_insert hcnP, max_comm]
      · rw [hrw, hstats.2.2.2.2]
        simp only [hmaxY]
        rw [Finset.fold_insert hcnP, max_comm]

/-- Bounding rectangle of a pixel set, accumulated exactly as the code
does: minima start at `width`/`height`, maxima at `0`, and the emitted
width/height are `max - min + 1`. -/
def rectOfFinset (width height : ℕ) (C : Finset ℕ) : Rect :=
  ⟨C.fold min width (fun i => i % width),
   C.fold min height (fun i => i / width),
   C.fold max 0 (fun i => i % width) - C.fold min width (fun i => i % width) + 1,
   C.fold max 0 (fun i => i / width) - C.fold min height (fun i => i / width) + 1⟩

/-- Tight bounding rectangle of the component of pixel `i`. -/
def rectOfSeed (mask : List ℕ) (width height i : ℕ) : Rect :=
  rectOfFinset width height (reachSet mask width height i)

/-- `i` is a foreground pixel that is the least index of its component:
exactly the pixels at which the scan loop starts a new flood fill. -/
def MinSeed (mask : List ℕ) (width height i : ℕ) : Prop :=
  fgIdx mask i ∧ i < width * height ∧ ∀ j ∈ reachSet mask width height i, i ≤ j

instance MinSeed.dec (mask : List ℕ) (width height i : ℕ) :
    Decidable (MinSeed mask width height i) := by
  unfold MinSeed
  infer_instance

/-- The least pixel index of the component of `j`. -/
def rep (mask : List ℕ) (width height j : ℕ) : ℕ :=
  (reachSet mask width height j).min' (reachSet_nonempty mask width height j)

/-- The rectangle the scan loop emits when it reaches pixel `i`, if any:
`i` must be the least index of its component and the component must have
at least `minPixels` pixels. -/
def emitAt (mask : List ℕ) (width height minPixels i : ℕ) : Option Rect :=
  if MinSeed mask width height i ∧ minPixels ≤ (reachSet mask width height i).card
  then some (rectOfSeed mask width height i) else none

lemma rep_mem (mask : List ℕ) (width height j : ℕ) :
    rep mask width height j ∈ reachSet mask width height j :=
  Finset.min'_mem _ _

lemma rep_le {mask : List ℕ} {width height j a : ℕ}
    (ha : a ∈ reachSet mask width height j) : rep mask width height j ≤ a :=
  Finset.min'_le _ _ ha

lemma rep_le_self (mask : List ℕ) (width height j : ℕ) :
    rep mask width height j ≤ j :=
  rep_le (self_mem_reachSet mask width height j)

lemma rep_congr {mask : List ℕ} {width height i j : ℕ}
    (h : Reach mask width height i j) :
    rep mask width height i = rep mask width height j := by
  unfold rep
  congr 1
  exact reachSet_eq_of_reach h

lemma reach_rep (mask : List ℕ) (width height j : ℕ) :
    Reach mask width height j (rep mask width height j) :=
  mem_reachSet.mp (rep_mem mask width height j)

lemma minSeed_of_not_lt {mask : List ℕ} {width height i : ℕ}
    (hfg : fgIdx mask i) (hlt : i < width * height)
    (hge : i ≤ rep mask width height i) : MinSeed mask width height i := by
  refine ⟨hfg, hlt, fun j hj => ?_⟩
  exact le_trans hge (rep_le hj)

lemma rep_eq_self_of_minSeed {mask : List ℕ} {width height i : ℕ}
    (h : MinSeed mask width height i) : rep mask width height i = i :=
  le_antisymm (rep_le_self mask width height i)
    (h.2.2 _ (rep_mem mask width height i))

lemma scanLoop_stop (mask : List ℕ) (width height minPixels idx : ℕ) (V : Finset ℕ)
    (L : List Rect) (h : ¬ idx < mask.length) :
    scanLoop mask width height minPixels idx V L = L := by
  rw [scanLoop]
  simp only [dif_neg h]

lemma scanLoop_skip (mask : List ℕ) (width height minPixels idx : ℕ) (V : Finset ℕ)
    (L : List Rect) (h : idx < mask.length) (hskip : idx ∈ V ∨ mask.getD idx 0 = 0) :
    scanLoop mask width height minPixels idx V L =
      scanLoop mask width height minPixels (idx + 1) V L := by
  rw [scanLoop]
  simp only [dif_pos h, if_pos hskip]

lemma scanLoop_hit (mask : List ℕ) (width height minPixels idx : ℕ) (V : Finset ℕ)
    (L : List Rect) (h : idx < mask.length) (hskip : ¬(idx ∈ V ∨ mask.getD idx 0 = 0)) :
    scanLoop mask width height minPixels idx V L =
      scanLoop mask width height minPixels (idx + 1)
        (floodLoop mask width height ⟨insert idx V, [idx], 0, width, height, 0, 0⟩).visited
        (if minPixels ≤ (floodLoop mask width height
              ⟨insert idx V, [idx], 0, width, height, 0, 0⟩).count then
          L ++ [⟨(floodLoop mask width height ⟨insert idx V, [idx], 0, width, height, 0, 0⟩).minX,
                 (floodLoop mask width height ⟨insert idx V, [idx], 0, width, height, 0, 0⟩).minY,
                 (floodLoop mask width height ⟨insert idx V, [idx], 0, width, height, 0, 0⟩).maxX -
                   (floodLoop mask width height ⟨insert idx V, [idx], 0, width, height, 0, 0⟩).minX + 1,
                 (floodLoop mask width height ⟨insert idx V, [idx], 0, width, height, 0, 0⟩).maxY -
                   (floodLoop mask width height ⟨insert idx V, [idx], 0, width, height, 0, 0⟩).minY + 1⟩]
        else L) := by
  rw [scanLoop]
  simp only [dif_pos h, if_neg hskip]

lemma floodLoop_at_seed (mask : List ℕ) (width height : ℕ) (V : Finset ℕ) (idx : ℕ)
    (hfg : fgIdx mask idx) (hlt : idx < width * height)
    (hV : ∀ j ∈ V, ¬ Reach mask width height idx j) :
    floodLoop mask width height ⟨insert idx V, [idx], 0, width, height, 0, 0⟩ =
      ⟨V ∪ reachSet mask width height idx, [],
       (reachSet mask width height idx).card,
       (reachSet mask width height idx).fold min width (fun i => i % width),
       (reachSet mask width height idx).fold min height (fun i => i / width),
       (reachSet mask width height idx).fold max 0 (fun i => i % width),
       (reachSet mask width height idx).fold max 0 (fun i => i / width)⟩ := by
  have hidxV : idx ∉ V := fun h => hV idx h Relation.ReflTransGen.refl
  apply floodLoop_correct mask width height V idx hfg hlt hV
    (fillMeasure mask.length ⟨insert idx V, [idx], 0, width, height, 0, 0⟩) _ ∅ (le_refl _)
  · refine ⟨?_, ?_, ?_, ?_, ?_⟩
    · show insert idx V = V ∪ ∅ ∪ ([idx] : List ℕ).toFinset
      ext a
      simp only [Finset.mem_insert, Finset.mem_union, Finset.not_mem_empty,
        List.toFinset_cons, List.toFinset_nil, Finset.mem_singleton, insert_emptyc_eq]
      tauto
    · intro j hj
      rcases List.mem_cons.mp hj with rfl | hj
      · exact Relation.ReflTransGen.refl
      · simp at hj
    · intro j hj
      rcases List.mem_cons.mp hj with rfl | hj
      · exact hidxV
      · simp at hj
    · intro j hj
      exact Finset.not_mem_empty j
    · simp
  · intro p hp
    exact absurd hp (Finset.not_mem_empty p)
  · intro p hp
    exact absurd hp (Finset.not_mem_empty p)
  · exact Or.inr (List.mem_cons_self _ _)
  · simp
  · simp
  · simp
  · simp
  · simp

lemma scanLoop_correct (mask : List ℕ) (width height minPixels : ℕ)
    (hw : mask.length = width * height) :
    ∀ (k idx : ℕ) (V : Finset ℕ) (L : List Rect),
      width * height - idx = k →
      (∀ j, j ∈ V ↔ (j < width * height ∧ fgIdx mask j ∧ rep mask width height j < idx)) →
      scanLoop mask width height minPixels idx V L =
        L ++ (List.range' idx (width * height - idx)).filterMap
          (emitAt mask width height minPixels) := by
  intro k
  induction k with
  | zero =>
    intro idx V L hk hV
    have hstop : ¬ idx < mask.length := by omega
    rw [scanLoop_stop _ _ _ _ _ _ _ hstop, hk]
    simp
  | succ m ih =>
    intro idx V L hk hV
    have hlt : idx < mask.length := by omega
    have hlt' : idx < width * height := by omega
    have hm : width * height - (idx + 1) = m := by omega
    have hcons : List.range' idx (width * height - idx) = idx :: List.range' (idx + 1) m := by
      rw [hk]
      rfl
    by_cases hskip : idx ∈ V ∨ mask.getD idx 0 = 0
    · have hemit : emitAt mask width height minPixels idx = none := by
        unfold emitAt
        rw [if_neg]
        rintro ⟨hms, _⟩
        rcases hskip with hmem | hzero
        · have hrep : rep mask width height idx < idx := ((hV idx).mp hmem).2.2
          have := rep_eq_self_of_minSeed hms
          omega
        · exact hms.1 hzero
      have hVnext : ∀ j, j ∈ V ↔
          (j < width * height ∧ fgIdx mask j ∧ rep mask width height j < idx + 1) := by
        intro j
        rw [hV j]
        constructor
        · rintro ⟨h1, h2, h3⟩
          exact ⟨h1, h2, by omega⟩
        · rintro ⟨h1, h2, h3⟩
          refine ⟨h1, h2, ?_⟩
          rcases Nat.lt_succ_iff_lt_or_eq.mp h3 with h | h
          · exact h
          · exfalso
            have hreachjidx : Reach mask width height j idx := by
              rw [← h]
              exact reach_rep _ _ _ _
            rcases hskip with hmem | hzero
            · have hrepidx : rep mask width height idx < idx := ((hV idx).mp hmem).2.2
              have hcong := rep_congr hreachjidx
              omega
            · exact (reach_fg h2 hreachjidx) hzero
      rw [scanLoop_skip _ _ _ _ _ _ _ hlt hskip]
      rw [ih (idx + 1) V L (by omega) hVnext, hcons]
      rw [List.filterMap_cons, hemit, hm]
    · push_neg at hskip
      obtain ⟨hnotV, hnz⟩ := hskip
      have hfg : fgIdx mask idx := hnz
      have hnrep : ¬ rep mask width height idx < idx := by
        intro hc
        exact hnotV ((hV idx).mpr ⟨hlt', hfg, hc⟩)
      have hV0 : ∀ j ∈ V, ¬ Reach mask width height idx j := by
        intro j hj hreach
        have hrepj : rep mask width height j < idx := ((hV j).mp hj).2.2
        have hcong := rep_congr hreach
        omega
      have hms : MinSeed mask width height idx :=
        minSeed_of_not_lt hfg hlt' (by omega)
      have hflood := floodLoop_at_seed mask width height V idx hfg hlt' hV0
      rw [scanLoop_hit _ _ _ _ _ _ _ hlt (by push_neg; exact ⟨hnotV, hnz⟩)]
      rw [hflood]
      dsimp only
      have hVnext : ∀ j, j ∈ V ∪ reachSet mask width height idx ↔
          (j < width * height ∧ fgIdx mask j ∧ rep mask width height j < idx + 1) := by
        intro j
        constructor
        · intro hj
          rcases Finset.mem_union.mp hj with hj | hj
          · obtain ⟨h1, h2, h3⟩ := (hV j).mp hj
            exact ⟨h1, h2, by omega⟩
          · have hreach : Reach mask width height idx j := mem_reachSet.mp hj
            refine ⟨reach_lt hlt' hreach, reach_fg hfg hreach, ?_⟩
            have h4 : rep mask width height j = rep mask width height idx :=
              (rep_congr hreach).symm
            rw [h4, rep_eq_self_of_minSeed hms]
            omega
        · rintro ⟨h1, h2, h3⟩
          rcases Nat.lt_succ_iff_lt_or_eq.mp h3 with h | h
          · exact Finset.mem_union_left _ ((hV j).mpr ⟨h1, h2, h⟩)
          · have hreach : Reach mask width height j idx := by
              rw [← h]
              exact reach_rep _ _ _ _
            exact Finset.mem_union_right _ (mem_reachSet.mpr (reach_symm hreach))
      rw [ih (idx + 1) _ _ (by omega) hVnext, hcons]
      rw [List.filterMap_cons]
      have hemit : emitAt mask width height minPixels idx =
          if minPixels ≤ (reachSet mask width height idx).card
          then some (rectOfSeed mask width height idx) else none := by
        unfold emitAt
        by_cases hc : minPixels ≤ (reachSet mask width height idx).card
        · rw [if_pos ⟨hms, hc⟩, if_pos hc]
        · rw [if_neg fun hcc => hc hcc.2, if_neg hc]
      rw [hemit, hm]
      by_cases hc : minPixels ≤ (reachSet mask width height idx).card
      · rw [if_pos hc, if_pos hc]
        show (L ++ [rectOfSeed mask width height idx]) ++ _ = _
        rw [List.append_assoc]
        rfl
      · rw [if_neg hc, if_neg hc]

/-- Full characterisation of the extractor on well-formed input: the
stable sort of the rectangles of exactly those components whose least
index survives the `minPixels` filter, in scan order. -/
lemma extract_char (mask : List ℕ) (width height minPixels : ℕ)
    (hw : mask.length = width * height) :
    extractConnectedMaskRects mask width height minPixels =
      List.insertionSort rectLE
        ((List.range (width * height)).filterMap (emitAt mask width height minPixels)) := by
  unfold extractConnectedMaskRects
  rw [if_neg (by omega)]
  congr 1
  have h0 : ∀ j, j ∈ (∅ : Finset ℕ) ↔
      (j < width * height ∧ fgIdx mask j ∧ rep mask width height j < 0) := by
    intro j
    simp
  rw [scanLoop_correct mask width height minPixels hw (width * height - 0) 0 ∅ [] rfl h0]
  rw [List.range_eq_range']
  simp

lemma fold_min_spec {C : Finset ℕ} {b : ℕ} {f : ℕ → ℕ} (hne : C.Nonempty)
    (hb : ∀ p ∈ C, f p < b) :
    (∃ p ∈ C, C.fold min b f = f p) ∧ ∀ p ∈ C, C.fold min b f ≤ f p := by
  have hle : ∀ p ∈ C, C.fold min b f ≤ f p := fun p hp =>
    (Finset.fold_min_le _).mpr (Or.inr ⟨p, hp, le_refl _⟩)
  refine ⟨?_, hle⟩
  obtain ⟨p0, hp0⟩ := hne
  rcases (Finset.fold_min_le _).mp (le_refl (C.fold min b f)) with h | ⟨x, hx, hfx⟩
  · exact absurd (lt_of_le_of_lt (le_trans h (hle p0 hp0)) (hb p0 hp0)) (lt_irrefl b)
  · exact ⟨x, hx, le_antisymm (hle x hx) hfx⟩

lemma fold_max_spec {C : Finset ℕ} {f : ℕ → ℕ} (hne : C.Nonempty) :
    (∃ p ∈ C, C.fold max 0 f = f p) ∧ ∀ p ∈ C, f p ≤ C.fold max 0 f := by
  have hle : ∀ p ∈ C, f p ≤ C.fold max 0 f := fun p hp =>
    (Finset.le_fold_max _).mpr (Or.inr ⟨p, hp, le_refl _⟩)
  refine ⟨?_, hle⟩
  obtain ⟨p0, hp0⟩ := hne
  rcases (Finset.le_fold_max _).mp (le_refl (C.fold max 0 f)) with h | ⟨x, hx, hfx⟩
  · have h0 := hle p0 hp0
    exact ⟨p0, hp0, by omega⟩
  · exact ⟨x, hx, le_antisymm hfx (hle x hx)⟩

lemma emitAt_eq_some_iff {mask : List ℕ} {width height minPixels i : ℕ} {r : Rect} :
    emitAt mask width height minPixels i = some r ↔
      MinSeed mask width height i ∧ minPixels ≤ (reachSet mask width height i).card ∧
        rectOfSeed mask width height i = r := by
  unfold emitAt
  split
  · rename_i hc
    simp only [Option.some_inj]
    constructor
    · intro h
      exact ⟨hc.1, hc.2, h⟩
    · intro h
      exact h.2.2
  · rename_i hc
    constructor
    · intro h
      cases h
    · intro h
      exact absurd ⟨h.1, h.2.1⟩ hc

lemma count_filterMap_range (f : ℕ → Option Rect) (r : Rect) (n : ℕ) :
    ((List.range n).filterMap f).count r =
      ((Finset.range n).filter (fun i => f i = some r)).card := by
  induction n with
  | zero => simp
  | succ m ih =>
    rw [List.range_succ, List.filterMap_append, List.count_append, Finset.range_succ,
      Finset.filter_insert]
    have hm : m ∉ (Finset.range m).filter (fun i => f i = some r) := by
      simp
    cases hf : f m with
    | none => simp [hf, ih]
    | some b =>
      by_cases hb : b = r
      · subst hb
        simp [hf, ih, Finset.card_insert_of_not_mem hm, List.count_cons]
      · simp [hf, ih, hb, List.count_cons]

/-- Count characterisation of the extractor: each rectangle value occurs
once per component whose least index is an emitting seed for it. -/
lemma extract_count (mask : List ℕ) (width height minPixels : ℕ)
    (hw : mask.length = width * height) (r : Rect) :
    (extractConnectedMaskRects mask width height minPixels).count r =
      ((Finset.range (width * height)).filter
        (fun i => MinSeed mask width height i ∧
          minPixels ≤ (reachSet mask width height i).card ∧
          rectOfSeed mask width height i = r)).card := by
  rw [extract_char mask width height minPixels hw]
  rw [(List.perm_insertionSort rectLE _).count_eq]
  rw [count_filterMap_range]
  congr 1
  apply Finset.filter_congr
  intro i _
  exact emitAt_eq_some_iff

/-- Monotone `filterMap` produces a sublist. -/
lemma filterMap_sublist_of_imp {f g : ℕ → Option Rect}
    (h : ∀ i r, f i = some r → g i = some r) :
    ∀ l : List ℕ, (l.filterMap f).Sublist (l.filterMap g) := by
  intro l
  induction l with
  | nil => simp
  | cons a l ih =>
    rw [List.filterMap_cons, List.filterMap_cons]
    cases hf : f a with
    | none =>
      cases hg : g a with
      | none => exact ih
      | some b => exact ih.trans (List.sublist_cons_self b _)
    | some b =>
      rw [h a b hf]
      exact ih.cons₂ b

/-- Stable sorting preserves the sublist relation (no antisymmetry of the
preorder is needed). -/
lemma insertionSort_sublist {l1 l2 : List Rect} (h : l1.Sublist l2) :
    (List.insertionSort rectLE l1).Sublist (List.insertionSort rectLE l2) := by
  induction h with
  | slnil => simp
  | cons a h ih =>
    exact ih.trans (List.sublist_orderedInsert _ _)
  | cons₂ a h ih =>
    exact List.Sublist.orderedInsert_sublist a ih (List.sorted_insertionSort rectLE _)

/-- Pixel `(px, py)` lies inside rectangle `r`. -/
def inRectPix (r : Rect) (px py : ℕ) : Prop :=
  r.x ≤ px ∧ px < r.x + r.width ∧ r.y ≤ py ∧ py < r.y + r.height

instance inRectPix.dec (r : Rect) (px py : ℕ) : Decidable (inRectPix r px py) := by
  unfold inRectPix
  infer_instance

/-- `r` is the tight axis-aligned bounding box of the maximal 4-connected
foreground component of some pixel `i`: the component is a set of
foreground pixels, pairwise 4-connected and closed under fg-adjacency
(hence maximal); `r.x`/`r.y` are the component minima, `r.x + r.width - 1`
and `r.y + r.height - 1` its maxima; and `r` contains the foreground
pixel `i` itself. -/
def TightComponentRect (mask : List ℕ) (width height : ℕ) (r : Rect) : Prop :=
  ∃ i, fgIdx mask i ∧ i < width * height ∧
    i ∈ reachSet mask width height i ∧
    (∀ p ∈ reachSet mask width height i, fgIdx mask p) ∧
    (∀ p ∈ reachSet mask width height i, ∀ q ∈ reachSet mask width height i,
      Reach mask width height p q) ∧
    (∀ p ∈ reachSet mask width height i, ∀ q, Step mask width height p q →
      q ∈ reachSet mask width height i) ∧
    (∃ p ∈ reachSet mask width height i, p % width = r.x) ∧
    (∀ p ∈ reachSet mask width height i, r.x ≤ p % width) ∧
    (∃ p ∈ reachSet mask width height i, p / width = r.y) ∧
    (∀ p ∈ reachSet mask width height i, r.y ≤ p / width) ∧
    (∃ p ∈ reachSet mask width height i, p % width = r.x + (r.width - 1)) ∧
    (∀ p ∈ reachSet mask width height i, p % width ≤ r.x + (r.width - 1)) ∧
    (∃ p ∈ reachSet mask width height i, p / width = r.y + (r.height - 1)) ∧
    (∀ p ∈ reachSet mask width height i, p / width ≤ r.y + (r.height - 1)) ∧
    1 ≤ r.width ∧ 1 ≤ r.height ∧ inRectPix r (i % width) (i / width)

/-- C1: on well-formed input, every rectangle returned by
`extractConnectedMaskRects` is the tight bounding box of exactly one
maximal 4-connected foreground component and contains at least one
foreground pixel. -/
theorem c1_rect_is_tight_component_bbox (mask : List ℕ) (width height minPixels : ℕ)
    (hw : mask.length = width * height) (r : Rect)
    (hr : r ∈ extractConnectedMaskRects mask width height minPixels) :
    TightComponentRect mask width height r := by
  rw [extract_char mask width height minPixels hw, List.mem_insertionSort] at hr
  obtain ⟨i, hirange, hemit⟩ := List.mem_filterMap.mp hr
  obtain ⟨hms, hcard, hrect⟩ := emitAt_eq_some_iff.mp hemit
  obtain ⟨hfg, hlt, hmin⟩ := hms
  set C := reachSet mask width height i with hC
  have hCne : C.Nonempty := reachSet_nonempty mask width height i
  have hmem : ∀ p ∈ C, p < width * height := fun p hp => reach_lt hlt (mem_reachSet.mp hp)
  have hmemfg : ∀ p ∈ C, fgIdx mask p := fun p hp => reach_fg hfg (mem_reachSet.mp hp)
  have hxb : ∀ p ∈ C, p % width < width := fun p hp => (coords_lt (hmem p hp)).1
  have hyb : ∀ p ∈ C, p / width < height := fun p hp => (coords_lt (hmem p hp)).2
  obtain ⟨⟨px, hpx, hpxe⟩, hxle⟩ := fold_min_spec hCne hxb
  obtain ⟨⟨py, hpy, hpye⟩, hyle⟩ := fold_min_spec hCne hyb
  obtain ⟨⟨qx, hqx, hqxe⟩, hxge⟩ := fold_max_spec (f := fun p => p % width) hCne
  obtain ⟨⟨qy, hqy, hqye⟩, hyge⟩ := fold_max_spec (f := fun p => p / width) hCne
  have hrfields : r = ⟨C.fold min width (fun p => p % width),
      C.fold min height (fun p => p / width),
      C.fold max 0 (fun p => p % width) - C.fold min width (fun p => p % width) + 1,
      C.fold max 0 (fun p => p / width) - C.fold min height (fun p => p / width) + 1⟩ := by
    rw [← hrect]
    rfl
  have hmmX : C.fold min width (fun p => p % width) ≤ C.fold max 0 (fun p => p % width) :=
    le_trans (hxle px hpx) (hxge px hpx)
  have hmmY : C.fold min height (fun p => p / width) ≤ C.fold max 0 (fun p => p / width) :=
    le_trans (hyle py hpy) (hyge py hpy)
  have hiC : i ∈ C := self_mem_reachSet mask width height i
  refine ⟨i, hfg, hlt, hiC, hmemfg, ?_, ?_, ?_, ?_, ?_, ?_, ?_, ?_, ?_, ?_, ?_, ?_, ?_⟩
  · intro p hp q hq
    exact reach_trans (reach_symm (mem_reachSet.mp hp)) (mem_reachSet.mp hq)
  · intro p hp q hstep
    exact mem_reachSet.mpr
      (Relation.ReflTransGen.tail (mem_reachSet.mp hp) hstep)
  · exact ⟨px, hpx, by rw [hrfields]; dsimp only; omega⟩
  · intro p hp
    rw [hrfields]
    dsimp only
    exact hxle p hp
  · exact ⟨py, hpy, by rw [hrfields]; dsimp only; omega⟩
  · intro p hp
    rw [hrfields]
    dsimp only
    exact hyle p hp
  · refine ⟨qx, hqx, ?_⟩
    rw [hrfields]
    dsimp only
    omega
  · intro p hp
    have := hxge p hp
    have := hxle p hp
    rw [hrfields]
    dsimp only
    omega
  · refine ⟨qy, hqy, ?_⟩
    rw [hrfields]
    dsimp only
    omega
  · intro p hp
    have := hyge p hp
    rw [hrfields]
    dsimp only
    omega
  · rw [hrfields]
    dsimp only
    omega
  · rw [hrfields]
    dsimp only
    omega
  · have h1 := hxle i hiC
    have h2 := hxge i hiC
    have h3 := hyle i hiC
    have h4 := hyge i hiC
    rw [hrfields]
    unfold inRectPix
    dsimp only
    omega

theorem c1_witness : TightComponentRect [1] 1 1 ⟨0, 0, 1, 1⟩ :=
  c1_rect_is_tight_component_bbox [1] 1 1 1 rfl ⟨0, 0, 1, 1⟩ (by
    rw [extract_eval [1] 1 1 1 [⟨0, 0, 1, 1⟩] (by decide)]
    exact List.mem_singleton_self _)

/-- C5: on a buffer whose length does not match `width*height` the
extractor returns the empty list (and, being a total function, raises no
error). -/
theorem c5_malformed_input_empty (mask : List ℕ) (width height minPixels : ℕ)
    (h : mask.length ≠ width * height) :
    extractConnectedMaskRects mask width height minPixels = [] := by
  unfold extractConnectedMaskRects
  rw [if_pos h]

theorem c5_witness : extractConnectedMaskRects [1, 1] 3 3 1 = [] :=
  c5_malformed_input_empty [1, 1] 3 3 1 (by decide)

/-- C8: the extractor is total and its loops terminate within explicit
bounds — the fueled mirror, whose outer scan gets `mask.length + 1`
iterations and each flood fill `5 * mask.length + 2` iterations (each
pixel is marked visited at most once, so stack pushes are bounded by
`mask.length`), always returns `some` and agrees with the extractor, for
every byte buffer, all dimensions and any `minPixels`. -/
theorem c8_total_within_explicit_fuel (mask : List ℕ) (width height minPixels : ℕ) :
    extractConnectedMaskRectsF mask width height minPixels =
      some (extractConnectedMaskRects mask width height minPixels) :=
  extractF_eq mask width height minPixels

/-- JS `Math.round`: floor of `q + 1/2` (halves round toward `+∞`). -/
def jsRound (q : ℚ) : ℤ := ⌊q + 1 / 2⌋

/-- The threshold the erase-brush caller passes to the extractor
(`handleApplyEraseMode` in `App.tsx`):
`Math.max(120, Math.round(eraseBrushSize * eraseBrushSize / 3))`. -/
def deriveMinPixels (eraseBrushSize : ℚ) : ℤ :=
  max 120 (jsRound (eraseBrushSize * eraseBrushSize / 3))

/-- C9: the erase-brush caller derives its threshold as
`max(120, round(brushDiameter² / 3))`, hence it is always at least 120. -/
theorem c9_minPixels_policy (eraseBrushSize : ℚ) :
    deriveMinPixels eraseBrushSize =
      max 120 (jsRound (eraseBrushSize * eraseBrushSize / 3)) ∧
    120 ≤ deriveMinPixels eraseBrushSize :=
  ⟨rfl, le_max_left _ _⟩

/-- C2: on well-formed input a component contributes its rectangle iff its
pixel count reaches `minPixels`: every least-seed component with
`minPixels ≤ card` puts its bounding box in the output, and each
rectangle value occurs exactly as often as there are components of
size `≥ minPixels` with that bounding box — components below the
threshold contribute nothing, whatever their bounding box. -/
theorem c2_component_threshold_iff (mask : List ℕ) (width height minPixels : ℕ)
    (hw : mask.length = width * height) :
    (∀ i, MinSeed mask width height i →
      minPixels ≤ (reachSet mask width height i).card →
      rectOfSeed mask width height i ∈ extractConnectedMaskRects mask width height minPixels) ∧
    (∀ r : Rect, (extractConnectedMaskRects mask width height minPixels).count r =
      ((Finset.range (width * height)).filter
        (fun i => MinSeed mask width height i ∧
          minPixels ≤ (reachSet mask width height i).card ∧
          rectOfSeed mask width height i = r)).card) := by
  constructor
  · intro i hms hcard
    rw [extract_char mask width height minPixels hw, List.mem_insertionSort]
    exact List.mem_filterMap.mpr ⟨i, List.mem_range.mpr hms.2.1,
      emitAt_eq_some_iff.mpr ⟨hms, hcard, rfl⟩⟩
  · intro r
    exact extract_count mask width height minPixels hw r

theorem c2_witness :
    (extractConnectedMaskRects [1] 1 1 1).count ⟨0, 0, 1, 1⟩ =
      ((Finset.range (1 * 1)).filter
        (fun i => MinSeed [1] 1 1 i ∧ 1 ≤ (reachSet [1] 1 1 i).card ∧
          rectOfSeed [1] 1 1 i = ⟨0, 0, 1, 1⟩)).card :=
  (c2_component_threshold_iff [1] 1 1 1 rfl).2 ⟨0, 0, 1, 1⟩

/-- A 3×3 mask: the top row plus the right column form one Γ-shaped
component whose bounding box is the whole canvas, and pixel (0, 2) is a
separate single-pixel component lying inside that bounding box. -/
def overlapMask : List ℕ := [1, 1, 1, 0, 0, 1, 1, 0, 1]

/-- C4: on well-formed input, consecutive rectangles `a`, `b` of the
output satisfy `a.y < b.y`, or `a.y = b.y` and `a.x ≤ b.x`. -/
theorem c4_sorted_by_y_then_x (mask : List ℕ) (width height minPixels : ℕ)
    (hw : mask.length = width * height) :
    List.Chain' (fun a b : Rect => a.y < b.y ∨ (a.y = b.y ∧ a.x ≤ b.x))
      (extractConnectedMaskRects mask width height minPixels) := by
  rw [extract_char mask width height minPixels hw]
  exact (List.sorted_insertionSort rectLE _).chain'

theorem c4_witness :
    List.Chain' (fun a b : Rect => a.y < b.y ∨ (a.y = b.y ∧ a.x ≤ b.x))
      (extractConnectedMaskRects overlapMask 3 3 1) :=
  c4_sorted_by_y_then_x overlapMask 3 3 1 rfl

/-- C3 as stated is false: on `overlapMask` the two returned rectangles
both contain pixel (0, 2). -/
theorem c3_counterexample :
    (⟨0, 0, 3, 3⟩ : Rect) ∈ extractConnectedMaskRects overlapMask 3 3 1 ∧
    (⟨0, 2, 1, 1⟩ : Rect) ∈ extractConnectedMaskRects overlapMask 3 3 1 ∧
    (⟨0, 0, 3, 3⟩ : Rect) ≠ ⟨0, 2, 1, 1⟩ ∧
    inRectPix ⟨0, 0, 3, 3⟩ 0 2 ∧ inRectPix ⟨0, 2, 1, 1⟩ 0 2 := by
  rw [extract_eval overlapMask 3 3 1 [⟨0, 0, 3, 3⟩, ⟨0, 2, 1, 1⟩] (by decide)]
  decide

lemma filterMap_emit_eq_map_filter (mask : List ℕ) (width height minPixels : ℕ) :
    ∀ l : List ℕ, l.filterMap (emitAt mask width height minPixels) =
      (l.filter (fun i => decide (MinSeed mask width height i ∧
        minPixels ≤ (reachSet mask width height i).card))).map
        (rectOfSeed mask width height) := by
  intro l
  induction l with
  | nil => simp
  | cons a l ih =>
    rw [List.filterMap_cons, List.filter_cons]
    by_cases hc : MinSeed mask width height a ∧
        minPixels ≤ (reachSet mask width height a).card
    · have hemit : emitAt mask width height minPixels a =
          some (rectOfSeed mask width height a) := by
        unfold emitAt
        rw [if_pos hc]
      rw [hemit, if_pos (by simpa using hc), List.map_cons, ih]
    · have hemit : emitAt mask width height minPixels a = none := by
        unfold emitAt
        rw [if_neg hc]
      rw [hemit, if_neg (by simpa using hc), ih]

/-- C3 amended: output rectangles may overlap, but distinct entries of
the output are bounding boxes of distinct, pairwise-disjoint components:
the output is a permutation of the rectangles of a duplicate-free list of
surviving component seeds with pairwise-disjoint components. -/
theorem c3_amended_components_disjoint (mask : List ℕ) (width height minPixels : ℕ)
    (hw : mask.length = width * height) :
    ∃ seeds : List ℕ, seeds.Nodup ∧
      (∀ s ∈ seeds, MinSeed mask width height s ∧
        minPixels ≤ (reachSet mask width height s).card) ∧
      (extractConnectedMaskRects mask width height minPixels).Perm
        (seeds.map (rectOfSeed mask width height)) ∧
      seeds.Pairwise (fun a b =>
        Disjoint (reachSet mask width height a) (reachSet mask width height b)) := by
  refine ⟨(List.range (width * height)).filter
    (fun i => decide (MinSeed mask width height i ∧
      minPixels ≤ (reachSet mask width height i).card)), ?_, ?_, ?_, ?_⟩
  · exact (List.nodup_range _).filter _
  · intro s hs
    have hms := List.of_mem_filter hs
    simp only [decide_eq_true_eq] at hms
    exact hms
  · rw [extract_char mask width height minPixels hw]
    rw [filterMap_emit_eq_map_filter]
    exact List.perm_insertionSort rectLE _
  · have hnd : ((List.range (width * height)).filter
        (fun i => decide (MinSeed mask width height i ∧
          minPixels ≤ (reachSet mask width height i).card))).Nodup :=
      (List.nodup_range _).filter _
    refine List.Pairwise.imp_of_mem ?_ hnd
    intro a b ha hb hne
    have hma2 := List.of_mem_filter ha
    have hmb2 := List.of_mem_filter hb
    simp only [decide_eq_true_eq] at hma2 hmb2
    have hma : MinSeed mask width height a := hma2.1
    have hmb : MinSeed mask width height b := hmb2.1
    apply reachSet_disjoint
    intro hreach
    apply hne
    calc a = rep mask width height a := (rep_eq_self_of_minSeed hma).symm
      _ = rep mask width height b := rep_congr hreach
      _ = b := rep_eq_self_of_minSeed hmb

theorem c3_amended_witness :
    ∃ seeds : List ℕ, seeds.Nodup ∧
      (∀ s ∈ seeds, MinSeed overlapMask 3 3 s ∧ 1 ≤ (reachSet overlapMask 3 3 s).card) ∧
      (extractConnectedMaskRects overlapMask 3 3 1).Perm
        (seeds.map (rectOfSeed overlapMask 3 3)) ∧
      seeds.Pairwise (fun a b =>
        Disjoint (reachSet overlapMask 3 3 a) (reachSet overlapMask 3 3 b)) :=
  c3_amended_components_disjoint overlapMask 3 3 1 rfl

/-- C10: raising the threshold only removes rectangles: with `m1 ≤ m2`
the output at `m2` is a sublist of the output at `m1`. -/
theorem c10_threshold_antitone (mask : List ℕ) (width height m1 m2 : ℕ)
    (hw : mask.length = width * height) (hm : m1 ≤ m2) :
    (extractConnectedMaskRects mask width height m2).Sublist
      (extractConnectedMaskRects mask width height m1) := by
  rw [extract_char mask width height m2 hw, extract_char mask width height m1 hw]
  apply insertionSort_sublist
  apply filterMap_sublist_of_imp
  intro i r hir
  obtain ⟨hms, hcard, hrect⟩ := emitAt_eq_some_iff.mp hir
  exact emitAt_eq_some_iff.mpr ⟨hms, le_trans hm hcard, hrect⟩

/-- The repository's noise-filtering test mask: a lone pixel at (0,0) and
a 2×2 block at (2,2)..(3,3) on a 6×6 canvas. -/
def noiseMask : List ℕ :=
  [255, 0, 0, 0, 0, 0,
   0, 0, 0, 0, 0, 0,
   0, 0, 255, 255, 0, 0,
   0, 0, 255, 255, 0, 0,
   0, 0, 0, 0, 0, 0,
   0, 0, 0, 0, 0, 0]

theorem c10_witness :
    (extractConnectedMaskRects noiseMask 6 6 2).Sublist
      (extractConnectedMaskRects noiseMask 6 6 1) :=
  c10_threshold_antitone noiseMask 6 6 1 2 rfl (by decide)

lemma filterMap_perm_pair (f : ℕ → Option Rect) (n a b : ℕ) (hab : a ≠ b)
    (ha : a < n) (hb : b < n)
    (hother : ∀ i < n, i ≠ a → i ≠ b → f i = none) :
    ((List.range n).filterMap f).Perm ((f a).toList ++ (f b).toList) := by
  rw [List.perm_iff_count]
  intro r
  rw [count_filterMap_range]
  have hfilter : (Finset.range n).filter (fun i => f i = some r) =
      ({a, b} : Finset ℕ).filter (fun i => f i = some r) := by
    ext i
    simp only [Finset.mem_filter, Finset.mem_range, Finset.mem_insert, Finset.mem_singleton]
    constructor
    · rintro ⟨hi, hfi⟩
      by_cases hia : i = a
      · exact ⟨Or.inl hia, hfi⟩
      by_cases hib : i = b
      · exact ⟨Or.inr hib, hfi⟩
      · rw [hother i hi hia hib] at hfi
        cases hfi
    · rintro ⟨hi | hi, hfi⟩
      · subst hi
        exact ⟨ha, hfi⟩
      · subst hi
        exact ⟨hb, hfi⟩
  rw [hfilter]
  have hcard : (({a, b} : Finset ℕ).filter (fun i => f i = some r)).card =
      (if f a = some r then 1 else 0) + (if f b = some r then 1 else 0) := by
    have hpair : ({a, b} : Finset ℕ) = insert a {b} := rfl
    rw [hpair, Finset.filter_insert, Finset.filter_singleton]
    by_cases h1 : f a = some r <;> by_cases h2 : f b = some r
    · rw [if_pos h1, if_pos h2, if_pos h1, if_pos h2,
        Finset.card_insert_of_not_mem (by simp [hab]), Finset.card_singleton]
    · rw [if_pos h1, if_neg h2, if_pos h1, if_neg h2,
        Finset.card_insert_of_not_mem (by simp), Finset.card_empty]
    · rw [if_neg h1, if_pos h2, if_neg h1, if_pos h2]
      simp
    · rw [if_neg h1, if_neg h2, if_neg h1, if_neg h2]
      simp
  have hcnt : ∀ o : Option Rect, (o.toList).count r = if o = some r then 1 else 0 := by
    intro o
    cases o with
    | none => simp
    | some c =>
      by_cases hc : c = r
      · subst hc
        simp
      · rw [if_neg (by simp [hc])]
        simp only [Option.toList_some]
        rw [List.count_eq_zero]
        simp only [List.mem_singleton]
        exact fun h => hc h.symm
  rw [List.count_append, hcnt, hcnt, hcard]

/-- C6: two nonempty foreground pixel sets with no 4-adjacent pair between
them (so in particular sets touching only diagonally), which together make
up the whole foreground and are each 4-connected, are extracted as two
separate components: each is filtered by `minPixels` and bounded
independently, and they are never merged into one rectangle. -/
theorem c6_separated_sets_not_merged (mask : List ℕ) (width height minPixels : ℕ)
    (S T : Finset ℕ) (hw : mask.length = width * height)
    (hST : Disjoint S T) (hSne : S.Nonempty) (hTne : T.Nonempty)
    (hrange : ∀ i ∈ S ∪ T, i < width * height)
    (hfg : ∀ i < width * height, (i ∈ S ∪ T ↔ fgIdx mask i))
    (hconnS : ∀ a ∈ S, ∀ b ∈ S, Reach mask width height a b)
    (hconnT : ∀ a ∈ T, ∀ b ∈ T, Reach mask width height a b)
    (hsep : ∀ a ∈ S, ∀ b ∈ T, ¬ AdjP width height a b) :
    (extractConnectedMaskRects mask width height minPixels).Perm
      ((if minPixels ≤ S.card then [rectOfFinset width height S] else []) ++
       (if minPixels ≤ T.card then [rectOfFinset width height T] else [])) := by
  have hfgS : ∀ a ∈ S, fgIdx mask a := fun a haS =>
    (hfg a (hrange a (Finset.mem_union_left _ haS))).mp (Finset.mem_union_left _ haS)
  have hfgT : ∀ a ∈ T, fgIdx mask a := fun a haT =>
    (hfg a (hrange a (Finset.mem_union_right _ haT))).mp (Finset.mem_union_right _ haT)
  have hcompS : ∀ a ∈ S, reachSet mask width height a = S := by
    intro a haS
    apply Finset.Subset.antisymm
    · intro j hj
      have hr : Reach mask width height a j := mem_reachSet.mp hj
      clear hj
      induction hr with
      | refl => exact haS
      | tail hab hstep ih =>
        rename_i b c
        have hcU : c ∈ S ∪ T := (hfg c hstep.1.2.1).mpr hstep.2.2
        rcases Finset.mem_union.mp hcU with h | h
        · exact h
        · exact absurd hstep.1 (hsep b ih c h)
    · intro b hb
      exact mem_reachSet.mpr (hconnS a haS b hb)
  have hcompT : ∀ a ∈ T, reachSet mask width height a = T := by
    intro a haT
    apply Finset.Subset.antisymm
    · intro j hj
      have hr : Reach mask width height a j := mem_reachSet.mp hj
      clear hj
      induction hr with
      | refl => exact haT
      | tail hab hstep ih =>
        rename_i b c
        have hcU : c ∈ S ∪ T := (hfg c hstep.1.2.1).mpr hstep.2.2
        rcases Finset.mem_union.mp hcU with h | h
        · exact absurd (adjP_symm hstep.1) (hsep c h b ih)
        · exact h
    · intro b hb
      exact mem_reachSet.mpr (hconnT a haT b hb)
  have hsS_S : S.min' hSne ∈ S := S.min'_mem hSne
  have hsT_T : T.min' hTne ∈ T := T.min'_mem hTne
  have hmsS : MinSeed mask width height (S.min' hSne) := by
    refine ⟨hfgS _ hsS_S, hrange _ (Finset.mem_union_left _ hsS_S), ?_⟩
    rw [hcompS _ hsS_S]
    exact fun j hj => S.min'_le j hj
  have hmsT : MinSeed mask width height (T.min' hTne) := by
    refine ⟨hfgT _ hsT_T, hrange _ (Finset.mem_union_right _ hsT_T), ?_⟩
    rw [hcompT _ hsT_T]
    exact fun j hj => T.min'_le j hj
  have hneq : S.min' hSne ≠ T.min' hTne := by
    intro h
    exact Finset.disjoint_left.mp hST hsS_S (h ▸ hsT_T)
  have hother : ∀ i < width * height, i ≠ S.min' hSne → i ≠ T.min' hTne →
      emitAt mask width height minPixels i = none := by
    intro i hi hia hib
    unfold emitAt
    rw [if_neg]
    rintro ⟨hms, _⟩
    have hiU : i ∈ S ∪ T := (hfg i hi).mpr hms.1
    rcases Finset.mem_union.mp hiU with h | h
    · have hrs : reachSet mask width height i = S := hcompS i h
      have hle : i ≤ S.min' hSne := hms.2.2 _ (by rw [hrs]; exact hsS_S)
      have hge : S.min' hSne ≤ i := S.min'_le i h
      exact hia (le_antisymm hle hge)
    · have hrs : reachSet mask width height i = T := hcompT i h
      have hle : i ≤ T.min' hTne := hms.2.2 _ (by rw [hrs]; exact hsT_T)
      have hge : T.min' hTne ≤ i := T.min'_le i h
      exact hib (le_antisymm hle hge)
  have hemS : emitAt mask width height minPixels (S.min' hSne) =
      if minPixels ≤ S.card then some (rectOfFinset width height S) else none := by
    unfold emitAt rectOfSeed
    rw [hcompS _ hsS_S]
    by_cases hc : minPixels ≤ S.card
    · rw [if_pos ⟨hmsS, hc⟩, if_pos hc]
    · rw [if_neg (fun hcc => hc hcc.2), if_neg hc]
  have hemT : emitAt mask width height minPixels (T.min' hTne) =
      if minPixels ≤ T.card then some (rectOfFinset width height T) else none := by
    unfold emitAt rectOfSeed
    rw [hcompT _ hsT_T]
    by_cases hc : minPixels ≤ T.card
    · rw [if_pos ⟨hmsT, hc⟩, if_pos hc]
    · rw [if_neg (fun hcc => hc hcc.2), if_neg hc]
  rw [extract_char mask width height minPixels hw]
  refine (List.perm_insertionSort rectLE _).trans ?_
  refine (filterMap_perm_pair (emitAt mask width height minPixels) (width * height)
    (S.min' hSne) (T.min' hTne) hneq (hrange _ (Finset.mem_union_left _ hsS_S))
    (hrange _ (Finset.mem_union_right _ hsT_T)) hother).trans ?_
  rw [hemS, hemT]
  by_cases h1 : minPixels ≤ S.card <;> by_cases h2 : minPixels ≤ T.card <;>
    simp [h1, h2]

theorem c6_witness :
    (extractConnectedMaskRects [1, 0, 0, 1] 2 2 1).Perm
      ((if 1 ≤ ({0} : Finset ℕ).card then [rectOfFinset 2 2 {0}] else []) ++
       (if 1 ≤ ({3} : Finset ℕ).card then [rectOfFinset 2 2 {3}] else [])) :=
  c6_separated_sets_not_merged [1, 0, 0, 1] 2 2 1 {0} {3} rfl (by decide)
    ⟨0, Finset.mem_singleton_self 0⟩ ⟨3, Finset.mem_singleton_self 3⟩
    (by decide) (by decide) (by decide) (by decide) (by decide)

/-- C7: the output depends only on which mask bytes are zero: masks of the
same length agreeing on the zero/non-zero status of every byte produce
identical rectangle lists, order included. -/
theorem c7_zero_pattern_only (mask1 mask2 : List ℕ) (width height minPixels : ℕ)
    (hlen : mask1.length = mask2.length)
    (hzero : ∀ i < mask1.length, (mask1.getD i 0 = 0 ↔ mask2.getD i 0 = 0)) :
    extractConnectedMaskRects mask1 width height minPixels =
      extractConnectedMaskRects mask2 width height minPixels := by
  have hfg : ∀ i, fgIdx mask1 i ↔ fgIdx mask2 i := by
    intro i
    by_cases hi : i < mask1.length
    · unfold fgIdx
      exact not_congr (hzero i hi)
    · unfold fgIdx
      push_neg at hi
      rw [List.getD_eq_default _ _ hi, List.getD_eq_default _ _ (hlen ▸ hi)]
  have hfgeq : fgIdx mask1 = fgIdx mask2 := funext fun i => propext (hfg i)
  have hstep : Step mask1 width height = Step mask2 width height := by
    funext a b
    unfold Step
    rw [hfgeq]
  have hreach : Reach mask1 width height = Reach mask2 width height := by
    unfold Reach
    rw [hstep]
  have hrs : ∀ i, reachSet mask1 width height i = reachSet mask2 width height i := by
    intro i
    ext j
    rw [mem_reachSet, mem_reachSet, hreach]
  have hms : ∀ i, MinSeed mask1 width height i ↔ MinSeed mask2 width height i := by
    intro i
    unfold MinSeed
    rw [hfgeq, hrs i]
  have hrect : ∀ i, rectOfSeed mask1 width height i = rectOfSeed mask2 width height i := by
    intro i
    unfold rectOfSeed
    rw [hrs i]
  have hemit : emitAt mask1 width height minPixels = emitAt mask2 width height minPixels := by
    funext i
    unfold emitAt
    by_cases hc : MinSeed mask1 width height i ∧
        minPixels ≤ (reachSet mask1 width height i).card
    · rw [if_pos hc, if_pos ⟨(hms i).mp hc.1, by rw [← hrs i]; exact hc.2⟩, hrect i]
    · rw [if_neg hc, if_neg (fun hc2 => hc ⟨(hms i).mpr hc2.1, by rw [hrs i]; exact hc2.2⟩)]
  by_cases hwf : mask1.length = width * height
  · rw [extract_char mask1 width height minPixels hwf,
      extract_char mask2 width height minPixels (hlen ▸ hwf), hemit]
  · unfold extractConnectedMaskRects
    rw [if_pos hwf, if_pos (fun h => hwf (hlen.trans h))]

theorem c7_witness :
    extractConnectedMaskRects [5, 0] 2 1 1 = extractConnectedMaskRects [255, 0] 2 1 1 :=
  c7_zero_pattern_only [5, 0] [255, 0] 2 1 1 rfl (by decide)
